import Mathlib

/-
Verification of the njfs filesystem-utility library.

The current implementation (index.js: `unix`, `statSafe`, `list`, `mkdirp`,
`remove`, `copy`, `move`) is shallowly embedded over a tree model of the
filesystem.  Paths are lists of name segments (a name is a list of
characters); the empty path stands for the process working directory `.`,
which always exists as a directory.  Node-style path-string helpers
(`path.basename`, `path.extname`, `path.join`, `path.dirname`) become
segment-level functions; `path.join p [n]` is `p ++ [n]` and `path.dirname`
is `List.dropLast`.  Machine I/O errors become an explicit error type.
The `Promise.all` fan-out over directory children is modelled as a
sequential left-to-right fold (one linearization of the concurrent
schedule; child operations touch disjoint destination subtrees).
Recursion over directory trees in `copy` and the recursive `list` walk is
fuel-indexed: running out of fuel yields a distinguished error that no
claim relies on.
-/

namespace Njfs

set_option maxHeartbeats 1000000

abbrev Name := List Char

abbrev Path := List Name

/-- Errors surfaced by the embedded operations.  The `Exxx` constructors
mirror Node.js error codes; `sourceNotFound` is the `Source not found`
error thrown by `copy`/`move`; `fuelOut` is the artificial fuel-exhaustion
marker of the embedding; `listFailed` is the legacy `list` wrapper error. -/
inductive Err
  | ENOENT
  | ENOTDIR
  | EEXIST
  | EISDIR
  | ENOTEMPTY
  | EINVAL
  | EXDEV
  | sourceNotFound
  | fuelOut
  | listFailed (cause : Err)
deriving DecidableEq, Repr

/-- Kind of a filesystem node, as reported by `stat`. -/
inductive NodeKind
  | file
  | dir
deriving DecidableEq, Repr

/-- A filesystem tree: a file with byte content, or a directory with a
(name, node) child list.  `readdir` order is the child-list order. -/
inductive FsNode
  | file (content : List Nat)
  | dir (children : List (Name × FsNode))

/-- `unix` from index.js line 268: `filepath.replace(/\\/g, '/')` —
every backslash becomes a forward slash. -/
def unix (p : List Char) : List Char :=
  p.map (fun c => if c = '\\' then '/' else c)

/-- ASCII lowercasing of one character (the fragment of JS
`String.prototype.toLowerCase` relevant to extension tokens). -/
def toLowerChar (c : Char) : Char :=
  if 'A' ≤ c ∧ c ≤ 'Z' then Char.ofNat (c.toNat + 32) else c

def toLowerName (n : Name) : Name :=
  n.map toLowerChar

/-- `path.basename` on a segment path: the last segment ("." when the
path is empty, rendered here as the empty name). -/
def basenameP (p : Path) : Name :=
  (p.getLast?).getD []

/-- Node's `path.extname` applied to a single name: the suffix from the
last dot, except that a name with no dot, a name whose only dot is its
first character, and the name ".." all have extension "". -/
def extnameCore (n : Name) : Name :=
  if n = ['.', '.'] then []
  else
    match (n.reverse).findIdx? (fun c => c = '.') with
    | none => []
    | some j => if j + 1 = n.length then [] else n.drop (n.length - 1 - j)

/-- `path.extname` of a segment path (the extension of its basename). -/
def extnameP (p : Path) : Name :=
  extnameCore (basenameP p)

/-- The destination resolution shared by `copy` (file case, index.js
line 406) and `move` (line 429):
`path.extname(dest) ? dest : path.join(dest, path.basename(source))`. -/
def resolveDest (dest : Path) (sourceBase : Name) : Path :=
  if extnameP dest ≠ [] then dest else dest ++ [sourceBase]

/-- Render a segment path with `/` separators (the value `unix(abs)`
pushed by `list` when `fullPath` is set). -/
def renderPath : Path → List Char
  | [] => []
  | [n] => n
  | n :: rest => n ++ '/' :: renderPath (rest)

/-- First child of a directory child-list with the given name
(`readdir` never yields duplicate names; lookups take the first). -/
def lookupChild : List (Name × FsNode) → Name → Option FsNode
  | [], _ => none
  | (m, c) :: rest, n => if m = n then some c else lookupChild rest n

/-- Replace the first child with the given name, or append a new one. -/
def setChild : List (Name × FsNode) → Name → FsNode → List (Name × FsNode)
  | [], n, x => [(n, x)]
  | (m, c) :: rest, n, x =>
    if m = n then (m, x) :: rest else (m, c) :: setChild rest n x

/-- Drop every child with the given name. -/
def removeChild : List (Name × FsNode) → Name → List (Name × FsNode)
  | [], _ => []
  | (m, c) :: rest, n =>
    if m = n then removeChild rest n else (m, c) :: removeChild rest n

/-- Resolve a path in a tree: `none` when a segment is missing or an
intermediate node is a file. -/
def lookup : FsNode → Path → Option FsNode
  | t, [] => some t
  | .file _, _ :: _ => none
  | .dir cs, n :: p =>
    match lookupChild cs n with
    | none => none
    | some c => lookup c p

/-- `fs.stat`-style kind query; `fs.access`-style existence is
`(lookup t p).isSome`. -/
def kindOf : FsNode → NodeKind
  | .file _ => .file
  | .dir _ => .dir

/-- `remove` / `fs.rm(p, recursive: true, force: true)`: delete the
subtree at `p`; missing paths and paths through files are silently
ignored (force semantics).  Removing `.` is modelled as a no-op. -/
def remove : FsNode → Path → FsNode
  | t, [] => t
  | .file c, _ :: _ => .file c
  | .dir cs, [n] => .dir (removeChild cs n)
  | .dir cs, n :: p :: ps =>
    match lookupChild cs n with
    | none => .dir cs
    | some c => .dir (setChild cs n (remove c (p :: ps)))

/-- Replace (or create) the node at a path, materialising missing
intermediate directories; a path through a file leaves the tree
unchanged.  Callers establish that the parent exists as a directory. -/
def setAt : FsNode → Path → FsNode → FsNode
  | _, [], x => x
  | .file c, _ :: _, _ => .file c
  | .dir cs, [n], x => .dir (setChild cs n x)
  | .dir cs, n :: p :: ps, x =>
    .dir (setChild cs n (setAt ((lookupChild cs n).getD (.dir [])) (p :: ps) x))

/-- `mkdirp` / `fs.mkdir(p, recursive: true)`: create the directory and
all missing ancestors; existing directories are fine, a file at the final
path is `EEXIST`, a file on the way is `ENOTDIR`. -/
def mkdirp : FsNode → Path → Except Err FsNode
  | .dir cs, [] => .ok (.dir cs)
  | .file _, [] => .error .EEXIST
  | .file _, _ :: _ => .error .ENOTDIR
  | .dir cs, n :: p =>
    match lookupChild cs n with
    | some c => (mkdirp c p).map (fun c2 => .dir (setChild cs n c2))
    | none => (mkdirp (.dir []) p).map (fun c2 => .dir (setChild cs n c2))

/-- `fs.readdir`: child names of a directory. -/
def readdirM (t : FsNode) (p : Path) : Except Err (List Name) :=
  match lookup t p with
  | some (.dir cs) => .ok (cs.map Prod.fst)
  | some (.file _) => .error .ENOTDIR
  | none => .error .ENOENT

/-- `createWriteStream` + pipe: create or truncate the file at `p`.
The parent must exist as a directory and the target must not be a
directory. -/
def writeNew (t : FsNode) (p : Path) (c : List Nat) : Except Err FsNode :=
  if p = [] then .error .EISDIR
  else
    match lookup t p.dropLast with
    | some (.dir _) =>
      match lookup t p with
      | some (.dir _) => .error .EISDIR
      | _ => .ok (setAt t p (.file c))
    | _ => .error .ENOENT

/-- Same-device `fs.rename` semantics: move the whole subtree at `src`
to `dst`.  Renaming onto oneself is a no-op; a destination inside the
source is `EINVAL`; the destination parent must exist; an existing
destination may only be overwritten file-over-file or over an empty
directory (dir-over-nonempty-dir is `ENOTEMPTY`). -/
def renameFs (t : FsNode) (src dst : Path) : Except Err FsNode :=
  if src = [] ∨ dst = [] then .error .EINVAL
  else
    match lookup t src with
    | none => .error .ENOENT
    | some node =>
      if src = dst then .ok t
      else if src <+: dst then .error .EINVAL
      else
        match lookup t dst.dropLast with
        | some (.dir _) =>
          match lookup t dst, node with
          | none, _ => .ok (setAt (remove t src) dst node)
          | some (.file _), .file _ => .ok (setAt (remove t src) dst node)
          | some (.file _), .dir _ => .error .ENOTDIR
          | some (.dir _), .file _ => .error .EISDIR
          | some (.dir ds), .dir _ =>
            if ds.isEmpty then .ok (setAt (remove t src) dst node)
            else .error .ENOTEMPTY
        | _ => .error .ENOENT

/-- The platform rename as `move` sees it: either the injected failure
(`some e`, e.g. `some .EXDEV` when source and destination live on
different devices — a condition a one-tree model cannot decide) or the
same-device semantics `renameFs`. -/
def platformRename : Option Err → FsNode → Path → Path → Except Err FsNode
  | some e, _, _, _ => .error e
  | none, t, src, dst => renameFs t src dst

/-- Sequential linearization of `Promise.all(items.map(item =>
copy(path.join(source, item), path.join(dest, item))))` followed by
`return dest`: fold the child copies left to right, first error wins. -/
def copyChildren (cp : FsNode → Path → Path → FsNode × Except Err Path) :
    FsNode → Path → Path → List Name → FsNode × Except Err Path
  | t, _, dest, [] => (t, .ok dest)
  | t, source, dest, item :: rest =>
    match cp t (source ++ [item]) (dest ++ [item]) with
    | (t', .ok _) => copyChildren cp t' source dest rest
    | (t', .error e) => (t', .error e)

/-- One level of `copy` (index.js lines 389-420), parameterized by the
function used for the recursive per-child calls:
classify the source (`Source not found` when missing), `mkdirp` the
destination directory (`path.extname(dest) ? path.dirname(dest) : dest`),
then either the directory branch (`mkdirp dest`, readdir, child copies,
return `dest`) or the file branch (resolve the final path, remove an
existing node there, stream-copy, return the final path). -/
def copyStep (cp : FsNode → Path → Path → FsNode × Except Err Path)
    (t : FsNode) (source dest : Path) : FsNode × Except Err Path :=
  match lookup t source with
  | none => (t, .error .sourceNotFound)
  | some srcNode =>
    let destDir := if extnameP dest ≠ [] then dest.dropLast else dest
    match mkdirp t destDir with
    | .error e => (t, .error e)
    | .ok t1 =>
      match srcNode with
      | .dir _ =>
        match mkdirp t1 dest with
        | .error e => (t1, .error e)
        | .ok t2 =>
          match readdirM t2 source with
          | .error e => (t2, .error e)
          | .ok items => copyChildren cp t2 source dest items
      | .file _ =>
        let finalDest := resolveDest dest (basenameP source)
        let t2 := if (lookup t1 finalDest).isSome then remove t1 finalDest else t1
        match lookup t2 source with
        | some (.file c) =>
          match writeNew t2 finalDest c with
          | .error e => (t2, .error e)
          | .ok t3 => (t3, .ok finalDest)
        | _ => (t2, .error .ENOENT)

/-- Fuel-exhaustion stand-in for a deeper recursive copy call. -/
def copyNone (t : FsNode) (_ _ : Path) : FsNode × Except Err Path :=
  (t, .error .fuelOut)

/-- `copy(source, dest)` with the recursion depth bounded by fuel. -/
def copy : Nat → FsNode → Path → Path → FsNode × Except Err Path
  | 0 => copyStep copyNone
  | fuel + 1 => copyStep (copy fuel)

/-- `move(source, dest)` (index.js lines 425-445): classify the source,
resolve the final destination, `mkdirp` its parent, remove an existing
node at the final destination, try the platform rename; on an `EXDEV`
failure fall back to `copy` then recursive `remove` of the source; any
other rename error propagates unchanged. -/
def move (ren : Option Err) (fuel : Nat) (t : FsNode) (source dest : Path) :
    FsNode × Except Err Path :=
  match lookup t source with
  | none => (t, .error .sourceNotFound)
  | some _ =>
    let finalDest := resolveDest dest (basenameP source)
    match mkdirp t finalDest.dropLast with
    | .error e => (t, .error e)
    | .ok t1 =>
      let t2 := if (lookup t1 finalDest).isSome then remove t1 finalDest else t1
      match platformRename ren t2 source finalDest with
      | .ok t3 => (t3, .ok finalDest)
      | .error e =>
        if e = .EXDEV then
          match copy fuel t2 source finalDest with
          | (t3, .ok _) => (remove t3 source, .ok finalDest)
          | (t3, .error e2) => (t3, .error e2)
        else (t2, .error e)

/-- The `extensions` option of `list`: a single string or an array. -/
inductive ExtOpt
  | str (s : Name)
  | arr (l : List Name)

/-- Drop leading dots: `e.replace(/^\.+/, '')`. -/
def stripLeadingDots (e : Name) : Name :=
  e.dropWhile (fun c => c = '.')

/-- The allowed-extension list built by the current `list`:
`'.' + e.replace(/^\.+/, '').toLowerCase()` over the option. -/
def allowedExts : ExtOpt → List Name
  | .str s => ['.' :: toLowerName (stripLeadingDots s)]
  | .arr l => l.map (fun e => '.' :: toLowerName (stripLeadingDots e))

/-- The extension filter of the current `list`:
`allowed.includes(path.extname(name).toLowerCase())`. -/
def keepName (exts : Option ExtOpt) (name : Name) : Bool :=
  match exts with
  | none => true
  | some eo => (allowedExts eo).contains (toLowerName (extnameCore name))

/-- `statSafe` (index.js lines 290-296) as `list` uses it: `fs.stat`
wrapped in try/catch.  `bad` marks paths whose stat call fails (races,
permission errors); the catch converts any such failure to `null`. -/
def statKind (bad : Path → Bool) (t : FsNode) (p : Path) : Option NodeKind :=
  if bad p then none else (lookup t p).map kindOf

/-- The per-entry body of `walk` in the current `list`, folded
sequentially over one directory's `readdir` result.  In recursive mode a
directory entry (per `statSafe`) is walked and not emitted; every other
entry passes the extension filter and is pushed (name, or rendered path
when `fullPath`). -/
def walkItems (wk : Path → Except Err (List Name)) (bad : Path → Bool)
    (t : FsNode) (exts : Option ExtOpt) (recursive fullPath : Bool)
    (current : Path) : List Name → Except Err (List Name)
  | [] => .ok []
  | name :: rest =>
    let abs := current ++ [name]
    if recursive = true ∧ statKind bad t abs = some .dir then
      match wk abs with
      | .error e => .error e
      | .ok inner =>
        match walkItems wk bad t exts recursive fullPath current rest with
        | .error e => .error e
        | .ok outer => .ok (inner ++ outer)
    else
      match walkItems wk bad t exts recursive fullPath current rest with
      | .error e => .error e
      | .ok l =>
        .ok ((if keepName exts name then [if fullPath then renderPath abs else name] else []) ++ l)

/-- `walk(currentPath)` of the current `list` (index.js lines 329-355),
fuel-bounded: readdir the directory, then process its entries. -/
def walkList (bad : Path → Bool) (t : FsNode) (exts : Option ExtOpt)
    (recursive fullPath : Bool) : Nat → Path → Except Err (List Name)
  | 0, _ => .error .fuelOut
  | fuel + 1, current =>
    match readdirM t current with
    | .error e => .error e
    | .ok items =>
      walkItems (walkList bad t exts recursive fullPath fuel) bad t exts
        recursive fullPath current items

/-- The current `list(dirPath, options)` (index.js lines 326-359). -/
def list (bad : Path → Bool) (t : FsNode) (fuel : Nat) (dirPath : Path)
    (exts : Option ExtOpt) (recursive fullPath : Bool) : Except Err (List Name) :=
  walkList bad t exts recursive fullPath fuel dirPath

/-- The legacy extension normalization `'.' + e.replace(/\.|\s*/g, '')`:
every dot and every whitespace character of the token is removed. -/
def legacyStrip (e : Name) : Name :=
  e.filter (fun c => ¬ (c = '.' ∨ c = ' ' ∨ c = '\t' ∨ c = '\n' ∨ c = '\r'))

/-- Split a legacy string option on commas (`ext.split(',')`). -/
def splitComma (s : Name) : List Name :=
  s.splitOn ','

/-- The token list the legacy `list` derives from its option. -/
def legacyExtList : ExtOpt → List Name
  | .str s => splitComma s
  | .arr l => l

/-- The legacy `list` (index.js lines 69-86): readdir, optionally filter
by `ext.indexOf(path.extname(file)) > -1`, wrapping a readdir failure. -/
def legacyList (t : FsNode) (dirPath : Path) (exts : Option ExtOpt) :
    Except Err (List Name) :=
  match readdirM t dirPath with
  | .error e => .error (.listFailed e)
  | .ok files =>
    match exts with
    | none => .ok files
    | some eo =>
      let ext := (legacyExtList eo).map (fun e => '.' :: legacyStrip e)
      .ok (files.filter (fun f => ext.contains (extnameCore f)))

/-- The recursive child-copy function never destroys a directory lying
strictly above its destination argument (it only creates directories and
only deletes or writes at or below the resolved destination). -/
def PreservesDirs (cp : FsNode → Path → Path → FsNode × Except Err Path) : Prop :=
  ∀ (t : FsNode) (s d q : Path) (ds : List (Name × FsNode)),
    q.length < d.length → lookup t q = some (.dir ds) →
    ∃ ds', lookup (cp t s d).1 q = some (.dir ds')

/-- A character of an extension token as the claims intend them:
a lowercase letter or a digit. -/
def plainChar (ch : Char) : Prop :=
  ('a' ≤ ch ∧ ch ≤ 'z') ∨ ('0' ≤ ch ∧ ch ≤ '9')

instance (ch : Char) : Decidable (plainChar ch) := by
  unfold plainChar
  infer_instance

/-! ### Concrete filesystem fixtures used by claim examples and witnesses -/

def fsFileOnly : FsNode := .dir [("a.txt".data, .file [9])]

def sampleTree1 (c1 c2 : List Nat) : FsNode :=
  .dir [("src".data, .dir [("x.txt".data, .file c1),
    ("sub".data, .dir [("y.txt".data, .file c2)])])]

def fsAB : FsNode :=
  .dir [("a".data, .dir [("b".data, .dir [("file.txt".data, .file [7])])])]

def fsDirFile : FsNode := .dir [("src".data, .dir []), ("f.txt".data, .file [5])]

def fsDirX : FsNode := .dir [("src".data, .dir [("x.txt".data, .file [3])])]

def fsDeep : FsNode :=
  .dir [("d".data, .dir [("sub".data, .dir [("y.txt".data, .file [1])])])]

def fsListDir : FsNode :=
  .dir [("dir".data, .dir [("a.js".data, .file [1]), ("b.ts".data, .file [2]),
    ("c.txt".data, .file [3])])]

/-- Stat-failure oracle for the C8 scenario: the stat call on d/sub fails. -/
def badSub : Path → Bool := fun p => decide (p = ["d".data, "sub".data])

def fsOver : FsNode :=
  .dir [("s".data, .dir [("n.txt".data, .file [1])]),
    ("t.x".data, .dir [("stale.txt".data, .file [9])])]

/-! ### Child-list lemmas -/

theorem lookupChild_setChild_self (cs : List (Name × FsNode)) (n : Name) (x : FsNode) :
    lookupChild (setChild cs n x) n = some x := by
  induction cs with
  | nil => simp [setChild, lookupChild]
  | cons e rest ih =>
    obtain ⟨m, c⟩ := e
    by_cases h : m = n
    · simp [setChild, h, lookupChild]
    · simp [setChild, h, lookupChild, ih]

theorem lookupChild_setChild_ne (cs : List (Name × FsNode)) (n m : Name) (x : FsNode)
    (h : m ≠ n) : lookupChild (setChild cs n x) m = lookupChild cs m := by
  have h' : n ≠ m := Ne.symm h
  induction cs with
  | nil => simp [setChild, lookupChild, h']
  | cons e rest ih =>
    obtain ⟨k, c⟩ := e
    by_cases hk : k = n
    · subst hk
      simp [setChild, lookupChild, h']
    · by_cases hm : k = m <;> simp [setChild, hk, lookupChild, hm, ih, h, h']

theorem lookupChild_removeChild_self (cs : List (Name × FsNode)) (n : Name) :
    lookupChild (removeChild cs n) n = none := by
  induction cs with
  | nil => rfl
  | cons e rest ih =>
    obtain ⟨m, c⟩ := e
    by_cases h : m = n <;> simp [removeChild, h, lookupChild, ih]

theorem lookupChild_removeChild_ne (cs : List (Name × FsNode)) (n m : Name)
    (h : m ≠ n) : lookupChild (removeChild cs n) m = lookupChild cs m := by
  have h' : n ≠ m := Ne.symm h
  induction cs with
  | nil => rfl
  | cons e rest ih =>
    obtain ⟨k, c⟩ := e
    by_cases hk : k = n
    · subst hk
      simp [removeChild, lookupChild, h', ih]
    · by_cases hm : k = m <;> simp [removeChild, hk, lookupChild, hm, ih, h, h']

theorem setChild_lookup_self (cs : List (Name × FsNode)) (n : Name) (c : FsNode)
    (h : lookupChild cs n = some c) : setChild cs n c = cs := by
  induction cs with
  | nil => simp [lookupChild] at h
  | cons e rest ih =>
    obtain ⟨m, c'⟩ := e
    by_cases hm : m = n
    · subst hm
      simp [lookupChild] at h
      simp [setChild, h]
    · simp [lookupChild, hm] at h
      simp [setChild, hm, ih h]

/-! ### Lookup, remove, setAt interaction lemmas -/

theorem lookup_append (t : FsNode) (p q : Path) :
    lookup t (p ++ q) = (lookup t p).bind (fun s => lookup s q) := by
  induction p generalizing t with
  | nil => simp [lookup]
  | cons n p ih =>
    cases t with
    | file c => rfl
    | dir cs =>
      show lookup (.dir cs) (n :: (p ++ q)) = _
      simp only [lookup]
      cases h : lookupChild cs n with
      | none => rfl
      | some c => exact ih c

theorem lookup_remove_self : ∀ (t : FsNode) (p : Path), p ≠ [] →
    lookup (remove t p) p = none
  | _, [], hp => absurd rfl hp
  | .file _, _ :: _, _ => rfl
  | .dir cs, [n], _ => by
    simp only [remove, lookup, lookupChild_removeChild_self]
  | .dir cs, n :: p :: ps, _ => by
    simp only [remove]
    cases h : lookupChild cs n with
    | none => simp only [lookup, h]
    | some c =>
      simp only [lookup, lookupChild_setChild_self]
      exact lookup_remove_self c (p :: ps) (by simp)

theorem lookup_remove_incomp : ∀ (t : FsNode) (p q : Path),
    ¬ p <+: q → ¬ q <+: p → lookup (remove t p) q = lookup t q
  | _, [], _, hp, _ => absurd (List.nil_prefix) hp
  | .file _, _ :: _, _, _, _ => rfl
  | .dir _, _ :: _, [], _, hq => absurd (List.nil_prefix) hq
  | .dir cs, n :: ps, m :: qs, hp, hq => by
    by_cases hnm : n = m
    · subst hnm
      have hps : ps ≠ [] := by
        rintro rfl
        exact hp (by simp [List.cons_prefix_cons])
      have hqs : qs ≠ [] := by
        rintro rfl
        exact hq (by simp [List.cons_prefix_cons])
      have hp' : ¬ ps <+: qs := fun h => hp (by simp [List.cons_prefix_cons, h])
      have hq' : ¬ qs <+: ps := fun h => hq (by simp [List.cons_prefix_cons, h])
      obtain ⟨p', ps', rfl⟩ : ∃ p' ps', ps = p' :: ps' := by
        cases ps with
        | nil => exact absurd rfl hps
        | cons a b => exact ⟨a, b, rfl⟩
      simp only [remove]
      cases h : lookupChild cs n with
      | none => rfl
      | some c =>
        simp only [lookup, lookupChild_setChild_self, h]
        exact lookup_remove_incomp c (p' :: ps') qs hp' hq'
    · cases ps with
      | nil =>
        simp only [remove, lookup, lookupChild_removeChild_ne cs n m (fun h => hnm h.symm)]
      | cons p' ps' =>
        simp only [remove]
        cases h : lookupChild cs n with
        | none => rfl
        | some c =>
          simp only [lookup, lookupChild_setChild_ne cs n m _ (fun h => hnm h.symm)]

theorem lookup_remove_file : ∀ (t : FsNode) (p q : Path) (c : List Nat),
    ¬ p <+: q → lookup t q = some (.file c) → lookup (remove t p) q = some (.file c)
  | t, [], q, c, hp, _ => absurd (List.nil_prefix) hp
  | .file _, _ :: _, _, _, _, h => h
  | .dir cs, n :: ps, [], c, _, h => by simp [lookup] at h
  | .dir cs, n :: ps, m :: qs, c, hp, h => by
    by_cases hnm : n = m
    · subst hnm
      cases ps with
      | nil => exact absurd (by simp [List.cons_prefix_cons]) hp
      | cons p' ps' =>
        have hp' : ¬ (p' :: ps') <+: qs := fun hh => hp (by simp [List.cons_prefix_cons, hh])
        simp only [remove]
        cases hc : lookupChild cs n with
        | none => exact h
        | some c0 =>
          simp only [lookup, lookupChild_setChild_self]
          simp only [lookup, hc] at h
          exact lookup_remove_file c0 (p' :: ps') qs c hp' h
    · cases ps with
      | nil =>
        simpa only [remove, lookup,
          lookupChild_removeChild_ne cs n m (fun hh => hnm hh.symm)] using h
      | cons p' ps' =>
        simp only [remove]
        cases hc : lookupChild cs n with
        | none => exact h
        | some c0 =>
          simpa only [lookup,
            lookupChild_setChild_ne cs n m _ (fun hh => hnm hh.symm)] using h

theorem lookup_remove_dir : ∀ (t : FsNode) (p q : Path) (ds : List (Name × FsNode)),
    ¬ p <+: q → lookup t q = some (.dir ds) →
    ∃ ds', lookup (remove t p) q = some (.dir ds')
  | t, [], q, ds, hp, _ => absurd (List.nil_prefix) hp
  | .file _, _ :: _, q, ds, _, h => ⟨ds, h⟩
  | .dir cs, [n], [], ds, _, h => by
    exact ⟨removeChild cs n, by simp only [remove, lookup]⟩
  | .dir cs, n :: p' :: ps', [], ds, _, h => by
    simp only [remove]
    cases hc : lookupChild cs n with
    | none => exact ⟨cs, rfl⟩
    | some c0 => exact ⟨setChild cs n (remove c0 (p' :: ps')), rfl⟩
  | .dir cs, n :: ps, m :: qs, ds, hp, h => by
    by_cases hnm : n = m
    · subst hnm
      cases ps with
      | nil => exact absurd (by simp [List.cons_prefix_cons]) hp
      | cons p' ps' =>
        have hp' : ¬ (p' :: ps') <+: qs := fun hh => hp (by simp [List.cons_prefix_cons, hh])
        simp only [remove]
        cases hc : lookupChild cs n with
        | none => exact ⟨ds, h⟩
        | some c0 =>
          simp only [lookup, lookupChild_setChild_self]
          simp only [lookup, hc] at h
          exact lookup_remove_dir c0 (p' :: ps') qs ds hp' h
    · cases ps with
      | nil =>
        refine ⟨ds, ?_⟩
        simpa only [remove, lookup,
          lookupChild_removeChild_ne cs n m (fun hh => hnm hh.symm)] using h
      | cons p' ps' =>
        simp only [remove]
        cases hc : lookupChild cs n with
        | none => exact ⟨ds, h⟩
        | some c0 =>
          refine ⟨ds, ?_⟩
          simpa only [lookup,
            lookupChild_setChild_ne cs n m _ (fun hh => hnm hh.symm)] using h

theorem lookup_setAt_self : ∀ (t : FsNode) (p : Path) (x : FsNode)
    (ds : List (Name × FsNode)), p ≠ [] → lookup t p.dropLast = some (.dir ds) →
    lookup (setAt t p x) p = some x
  | _, [], _, _, hp, _ => absurd rfl hp
  | t, [n], x, ds, _, h => by
    have ht : t = .dir ds := by simpa [lookup] using h
    subst ht
    simp [setAt, lookup, lookupChild_setChild_self]
  | t, n :: p' :: ps', x, ds, _, h => by
    cases t with
    | file c => simp [lookup, List.dropLast] at h
    | dir cs =>
      rw [show (n :: p' :: ps').dropLast = n :: (p' :: ps').dropLast from rfl] at h
      simp only [lookup] at h
      cases hc : lookupChild cs n with
      | none => rw [hc] at h; exact absurd h (by simp)
      | some c0 =>
        rw [hc] at h
        simp only [setAt, lookup, lookupChild_setChild_self, hc, Option.getD_some]
        exact lookup_setAt_self c0 (p' :: ps') x ds (by simp) h

theorem lookup_setAt_incomp : ∀ (t : FsNode) (p q : Path) (x : FsNode),
    ¬ p <+: q → ¬ q <+: p → lookup (setAt t p x) q = lookup t q
  | _, [], _, _, hp, _ => absurd List.nil_prefix hp
  | .file _, _ :: _, _, _, _, _ => rfl
  | .dir _, _ :: _, [], _, _, hq => absurd List.nil_prefix hq
  | .dir cs, n :: ps, m :: qs, x, hp, hq => by
    by_cases hnm : n = m
    · subst hnm
      have hps : ps ≠ [] := by
        rintro rfl
        exact hp (by simp [List.cons_prefix_cons])
      have hqs : qs ≠ [] := by
        rintro rfl
        exact hq (by simp [List.cons_prefix_cons])
      have hp' : ¬ ps <+: qs := fun h => hp (by simp [List.cons_prefix_cons, h])
      have hq' : ¬ qs <+: ps := fun h => hq (by simp [List.cons_prefix_cons, h])
      obtain ⟨p', ps', rfl⟩ : ∃ a b, ps = a :: b := by
        cases ps with
        | nil => exact absurd rfl hps
        | cons a b => exact ⟨a, b, rfl⟩
      obtain ⟨q', qs', rfl⟩ : ∃ a b, qs = a :: b := by
        cases qs with
        | nil => exact absurd rfl hqs
        | cons a b => exact ⟨a, b, rfl⟩
      simp only [setAt, lookup, lookupChild_setChild_self]
      cases hc : lookupChild cs n with
      | none =>
        simp only [hc, Option.getD_none]
        rw [lookup_setAt_incomp (.dir []) (p' :: ps') (q' :: qs') x hp' hq']
        simp [lookup, lookupChild]
      | some c0 =>
        simp only [hc, Option.getD_some]
        exact lookup_setAt_incomp c0 (p' :: ps') (q' :: qs') x hp' hq'
    · cases ps with
      | nil =>
        simp only [setAt, lookup, lookupChild_setChild_ne cs n m x (fun h => hnm h.symm)]
      | cons p' ps' =>
        simp only [setAt, lookup, lookupChild_setChild_ne cs n m _ (fun h => hnm h.symm)]

theorem lookup_setAt_file : ∀ (t : FsNode) (p q : Path) (x : FsNode) (c : List Nat),
    ¬ p <+: q → lookup t q = some (.file c) → lookup (setAt t p x) q = some (.file c)
  | _, [], _, _, _, hp, _ => absurd List.nil_prefix hp
  | .file _, _ :: _, _, _, _, _, h => h
  | .dir cs, _ :: _, [], _, _, _, h => by simp [lookup] at h
  | .dir cs, n :: ps, m :: qs, x, c, hp, h => by
    by_cases hnm : n = m
    · subst hnm
      cases ps with
      | nil => exact absurd (by simp [List.cons_prefix_cons]) hp
      | cons p' ps' =>
        have hp' : ¬ (p' :: ps') <+: qs := fun hh => hp (by simp [List.cons_prefix_cons, hh])
        simp only [lookup] at h
        cases hc : lookupChild cs n with
        | none => rw [hc] at h; exact absurd h (by simp)
        | some c0 =>
          rw [hc] at h
          simp only [setAt, lookup, lookupChild_setChild_self, hc, Option.getD_some]
          exact lookup_setAt_file c0 (p' :: ps') qs x c hp' h
    · cases ps with
      | nil =>
        simpa only [setAt, lookup,
          lookupChild_setChild_ne cs n m x (fun hh => hnm hh.symm)] using h
      | cons p' ps' =>
        simpa only [setAt, lookup,
          lookupChild_setChild_ne cs n m _ (fun hh => hnm hh.symm)] using h

theorem lookup_setAt_dir : ∀ (t : FsNode) (p q : Path) (x : FsNode)
    (ds : List (Name × FsNode)), ¬ p <+: q → lookup t q = some (.dir ds) →
    ∃ ds', lookup (setAt t p x) q = some (.dir ds')
  | _, [], _, _, _, hp, _ => absurd List.nil_prefix hp
  | .file _, _ :: _, _, _, ds, _, h => ⟨ds, h⟩
  | .dir cs, [n], [], x, _, _, _ => ⟨setChild cs n x, rfl⟩
  | .dir cs, n :: p' :: ps', [], x, _, _, _ =>
    ⟨setChild cs n (setAt ((lookupChild cs n).getD (.dir [])) (p' :: ps') x), rfl⟩
  | .dir cs, n :: ps, m :: qs, x, ds, hp, h => by
    by_cases hnm : n = m
    · subst hnm
      cases ps with
      | nil => exact absurd (by simp [List.cons_prefix_cons]) hp
      | cons p' ps' =>
        have hp' : ¬ (p' :: ps') <+: qs := fun hh => hp (by simp [List.cons_prefix_cons, hh])
        simp only [lookup] at h
        cases hc : lookupChild cs n with
        | none => rw [hc] at h; exact absurd h (by simp)
        | some c0 =>
          rw [hc] at h
          simp only [setAt, lookup, lookupChild_setChild_self, hc, Option.getD_some]
          exact lookup_setAt_dir c0 (p' :: ps') qs x ds hp' h
    · cases ps with
      | nil =>
        refine ⟨ds, ?_⟩
        simpa only [setAt, lookup,
          lookupChild_setChild_ne cs n m x (fun hh => hnm hh.symm)] using h
      | cons p' ps' =>
        refine ⟨ds, ?_⟩
        simpa only [setAt, lookup,
          lookupChild_setChild_ne cs n m _ (fun hh => hnm hh.symm)] using h

/-! ### mkdirp lemmas -/

theorem mkdirp_file_pres : ∀ (t : FsNode) (p : Path) (t' : FsNode) (q : Path)
    (c : List Nat), mkdirp t p = .ok t' → lookup t q = some (.file c) →
    lookup t' q = some (.file c)
  | .dir cs, [], t', q, c, hm, hl => by
    have : t' = .dir cs := by simpa [mkdirp] using hm.symm
    subst this
    exact hl
  | .file _, [], _, _, _, hm, _ => by simp [mkdirp] at hm
  | .file _, _ :: _, _, _, _, hm, _ => by simp [mkdirp] at hm
  | .dir cs, n :: p, t', q, c, hm, hl => by
    cases hc : lookupChild cs n with
    | some c0 =>
      simp only [mkdirp, hc] at hm
      cases hmk : mkdirp c0 p with
      | error e => rw [hmk] at hm; simp [Except.map] at hm
      | ok c2 =>
        rw [hmk] at hm
        simp only [Except.map, Except.ok.injEq] at hm
        subst hm
        cases q with
        | nil => simp [lookup] at hl
        | cons m qs =>
          by_cases hnm : n = m
          · subst hnm
            simp only [lookup, hc] at hl
            simp only [lookup, lookupChild_setChild_self]
            exact mkdirp_file_pres c0 p c2 qs c hmk hl
          · simp only [lookup, lookupChild_setChild_ne cs n m c2 (fun h => hnm h.symm)]
            simpa only [lookup] using hl
    | none =>
      simp only [mkdirp, hc] at hm
      cases hmk : mkdirp (.dir []) p with
      | error e => rw [hmk] at hm; simp [Except.map] at hm
      | ok c2 =>
        rw [hmk] at hm
        simp only [Except.map, Except.ok.injEq] at hm
        subst hm
        cases q with
        | nil => simp [lookup] at hl
        | cons m qs =>
          by_cases hnm : n = m
          · subst hnm
            simp only [lookup, hc] at hl
            exact absurd hl (by simp)
          · simp only [lookup, lookupChild_setChild_ne cs n m c2 (fun h => hnm h.symm)]
            simpa only [lookup] using hl

theorem mkdirp_dir_pres : ∀ (t : FsNode) (p : Path) (t' : FsNode) (q : Path)
    (ds : List (Name × FsNode)), mkdirp t p = .ok t' → lookup t q = some (.dir ds) →
    ∃ ds', lookup t' q = some (.dir ds')
  | .dir cs, [], t', q, ds, hm, hl => by
    have : t' = .dir cs := by simpa [mkdirp] using hm.symm
    subst this
    exact ⟨ds, hl⟩
  | .file _, [], _, _, _, hm, _ => by simp [mkdirp] at hm
  | .file _, _ :: _, _, _, _, hm, _ => by simp [mkdirp] at hm
  | .dir cs, n :: p, t', q, ds, hm, hl => by
    cases hc : lookupChild cs n with
    | some c0 =>
      simp only [mkdirp, hc] at hm
      cases hmk : mkdirp c0 p with
      | error e => rw [hmk] at hm; simp [Except.map] at hm
      | ok c2 =>
        rw [hmk] at hm
        simp only [Except.map, Except.ok.injEq] at hm
        subst hm
        cases q with
        | nil => exact ⟨setChild cs n c2, rfl⟩
        | cons m qs =>
          by_cases hnm : n = m
          · subst hnm
            simp only [lookup, hc] at hl
            simp only [lookup, lookupChild_setChild_self]
            exact mkdirp_dir_pres c0 p c2 qs ds hmk hl
          · refine ⟨ds, ?_⟩
            simp only [lookup, lookupChild_setChild_ne cs n m c2 (fun h => hnm h.symm)]
            simpa only [lookup] using hl
    | none =>
      simp only [mkdirp, hc] at hm
      cases hmk : mkdirp (.dir []) p with
      | error e => rw [hmk] at hm; simp [Except.map] at hm
      | ok c2 =>
        rw [hmk] at hm
        simp only [Except.map, Except.ok.injEq] at hm
        subst hm
        cases q with
        | nil => exact ⟨setChild cs n c2, rfl⟩
        | cons m qs =>
          by_cases hnm : n = m
          · subst hnm
            simp only [lookup, hc] at hl
            exact absurd hl (by simp)
          · refine ⟨ds, ?_⟩
            simp only [lookup, lookupChild_setChild_ne cs n m c2 (fun h => hnm h.symm)]
            simpa only [lookup] using hl

theorem mkdirp_ok_dir : ∀ (t : FsNode) (p : Path) (t' : FsNode),
    mkdirp t p = .ok t' → ∃ ds, lookup t' p = some (.dir ds)
  | .dir cs, [], t', hm => by
    have : t' = .dir cs := by simpa [mkdirp] using hm.symm
    subst this
    exact ⟨cs, rfl⟩
  | .file _, [], _, hm => by simp [mkdirp] at hm
  | .file _, _ :: _, _, hm => by simp [mkdirp] at hm
  | .dir cs, n :: p, t', hm => by
    cases hc : lookupChild cs n with
    | some c0 =>
      simp only [mkdirp, hc] at hm
      cases hmk : mkdirp c0 p with
      | error e => rw [hmk] at hm; simp [Except.map] at hm
      | ok c2 =>
        rw [hmk] at hm
        simp only [Except.map, Except.ok.injEq] at hm
        subst hm
        obtain ⟨ds, hds⟩ := mkdirp_ok_dir c0 p c2 hmk
        exact ⟨ds, by simp only [lookup, lookupChild_setChild_self]; exact hds⟩
    | none =>
      simp only [mkdirp, hc] at hm
      cases hmk : mkdirp (.dir []) p with
      | error e => rw [hmk] at hm; simp [Except.map] at hm
      | ok c2 =>
        rw [hmk] at hm
        simp only [Except.map, Except.ok.injEq] at hm
        subst hm
        obtain ⟨ds, hds⟩ := mkdirp_ok_dir (.dir []) p c2 hmk
        exact ⟨ds, by simp only [lookup, lookupChild_setChild_self]; exact hds⟩

theorem mkdirp_of_dir : ∀ (t : FsNode) (p : Path) (ds : List (Name × FsNode)),
    lookup t p = some (.dir ds) → mkdirp t p = .ok t
  | t, [], ds, h => by
    have : t = .dir ds := by simpa [lookup] using h
    subst this
    rfl
  | .file _, _ :: _, _, h => by simp [lookup] at h
  | .dir cs, n :: p, ds, h => by
    simp only [lookup] at h
    cases hc : lookupChild cs n with
    | none => rw [hc] at h; exact absurd h (by simp)
    | some c0 =>
      rw [hc] at h
      have := mkdirp_of_dir c0 p ds h
      simp only [mkdirp, hc, this, Except.map, setChild_lookup_self cs n c0 hc]

theorem mkdirp_no_file_prefix : ∀ (t : FsNode) (p : Path) (t' : FsNode) (q : Path)
    (c : List Nat), mkdirp t p = .ok t' → q <+: p → lookup t q = some (.file c) →
    False
  | t, [], t', q, c, hm, hq, hl => by
    have : q = [] := List.prefix_nil.mp hq
    subst this
    have : t = .file c := by simpa [lookup] using hl
    subst this
    simp [mkdirp] at hm
  | .file _, _ :: _, _, _, _, hm, _, _ => by simp [mkdirp] at hm
  | .dir cs, n :: p, t', q, c, hm, hq, hl => by
    cases q with
    | nil => simp [lookup] at hl
    | cons m qs =>
      obtain ⟨hmn, hqs⟩ := List.cons_prefix_cons.mp hq
      subst hmn
      simp only [lookup] at hl
      cases hc : lookupChild cs m with
      | none => rw [hc] at hl; exact absurd hl (by simp)
      | some c0 =>
        rw [hc] at hl
        simp only [mkdirp, hc] at hm
        cases hmk : mkdirp c0 p with
        | error e => rw [hmk] at hm; simp [Except.map] at hm
        | ok c2 => exact mkdirp_no_file_prefix c0 p c2 qs c hmk hqs hl

/-! ### Ancestors, writeNew, renameFs -/

theorem lookup_parent_dir (t : FsNode) (p : Path) (v : FsNode)
    (h : lookup t p = some v) (hp : p ≠ []) :
    ∃ ds, lookup t p.dropLast = some (.dir ds) := by
  have hsplit : p.dropLast ++ [p.getLast hp] = p := List.dropLast_append_getLast hp
  rw [← hsplit, lookup_append] at h
  cases hpar : lookup t p.dropLast with
  | none => rw [hpar] at h; simp at h
  | some s =>
    rw [hpar] at h
    cases s with
    | file c => simp [lookup] at h
    | dir ds => exact ⟨ds, rfl⟩

theorem lookup_prefix_dir (t : FsNode) (p : Path) (m : Name) (qs : Path) (v : FsNode)
    (h : lookup t (p ++ m :: qs) = some v) :
    ∃ ds, lookup t p = some (.dir ds) ∧ ds ≠ [] := by
  rw [lookup_append] at h
  cases hpar : lookup t p with
  | none => rw [hpar] at h; simp at h
  | some s =>
    rw [hpar] at h
    cases s with
    | file c => simp [lookup] at h
    | dir ds =>
      refine ⟨ds, rfl, ?_⟩
      rintro rfl
      simp [lookup, lookupChild] at h

theorem writeNew_ok (t : FsNode) (p : Path) (c : List Nat) (t' : FsNode)
    (h : writeNew t p c = .ok t') :
    p ≠ [] ∧ (∃ ds, lookup t p.dropLast = some (.dir ds)) ∧
      t' = setAt t p (.file c) := by
  by_cases hp : p = []
  · simp [writeNew, hp] at h
  · refine ⟨hp, ?_⟩
    simp only [writeNew, hp, if_neg (by exact hp)] at h
    cases hpar : lookup t p.dropLast with
    | none => rw [hpar] at h; simp at h
    | some s =>
      rw [hpar] at h
      cases s with
      | file c0 => simp at h
      | dir ds =>
        refine ⟨⟨ds, rfl⟩, ?_⟩
        cases htgt : lookup t p with
        | none => rw [htgt] at h; simpa using h.symm
        | some v =>
          rw [htgt] at h
          cases v with
          | file c1 => simpa using h.symm
          | dir ds1 => simp at h

theorem prefix_of_lookup_some (t : FsNode) (p q : Path) (v : FsNode)
    (hpre : p <+: q) (hne : p ≠ q) (h : lookup t q = some v) :
    ∃ ds, lookup t p = some (.dir ds) ∧ ds ≠ [] := by
  obtain ⟨r, hr⟩ := hpre
  cases r with
  | nil => exact absurd (by simpa using hr) hne
  | cons m qs =>
    subst hr
    exact lookup_prefix_dir t p m qs v h

theorem renameFs_ok_spec (t : FsNode) (src dst : Path) (t' node : FsNode)
    (hsrc : lookup t src = some node) (hne : src ≠ dst)
    (h : renameFs t src dst = .ok t') :
    lookup t' src = none ∧ lookup t' dst = some node := by
  by_cases h0 : src = [] ∨ dst = []
  · simp [renameFs, h0] at h
  · have hsnil : src ≠ [] := fun hh => h0 (Or.inl hh)
    have hdnil : dst ≠ [] := fun hh => h0 (Or.inr hh)
    by_cases hpre : src <+: dst
    · simp [renameFs, h0, hsrc, hne, hpre] at h
    · simp only [renameFs, if_neg h0, hsrc, if_neg hne, if_neg hpre] at h
      cases hpar : lookup t dst.dropLast with
      | none => rw [hpar] at h; simp at h
      | some s =>
        cases s with
        | file c => rw [hpar] at h; simp at h
        | dir pds =>
          have hnotpre2 : lookup t dst = none ∨
              (∃ c1, lookup t dst = some (.file c1)) ∨
              (∃ dds, lookup t dst = some (.dir dds) ∧ dds.isEmpty = true) → ¬ dst <+: src := by
            intro hcase hp2
            obtain ⟨ds, hds, hdsne⟩ := prefix_of_lookup_some t dst src node hp2
              (fun hh => hne hh.symm) hsrc
            rcases hcase with h1 | ⟨c1, h1⟩ | ⟨dds, h1, h2⟩
            · rw [h1] at hds; exact absurd hds (by simp)
            · rw [h1] at hds; simp at hds
            · rw [h1] at hds
              have : dds = ds := by simpa using hds
              subst this
              exact hdsne (List.isEmpty_iff.mp h2)
          have hto : t' = setAt (remove t src) dst node → ¬ dst <+: src →
              lookup t' src = none ∧ lookup t' dst = some node := by
            intro ht' hp2
            subst ht'
            constructor
            · rw [lookup_setAt_incomp (remove t src) dst src node hp2
                (fun hh => hpre hh)]
              exact lookup_remove_self t src hsnil
            · have hsp : ¬ src <+: dst.dropLast :=
                fun hh => hpre (hh.trans (List.dropLast_prefix dst))
              obtain ⟨ds', hds'⟩ := lookup_remove_dir t src dst.dropLast pds hsp hpar
              exact lookup_setAt_self (remove t src) dst node ds' hdnil hds'
          cases hdst : lookup t dst with
          | none =>
            simp only [hpar, hdst, Except.ok.injEq] at h
            exact hto h.symm (hnotpre2 (Or.inl hdst))
          | some v =>
            cases v with
            | file c1 =>
              cases node with
              | file nc =>
                simp only [hpar, hdst, Except.ok.injEq] at h
                exact hto h.symm (hnotpre2 (Or.inr (Or.inl ⟨c1, hdst⟩)))
              | dir nds => simp [hpar, hdst] at h
            | dir dds =>
              cases node with
              | file nc => simp [hpar, hdst] at h
              | dir nds =>
                by_cases hemp : dds.isEmpty = true
                · simp only [hpar, hdst, if_pos hemp, Except.ok.injEq] at h
                  exact hto h.symm (hnotpre2 (Or.inr (Or.inr ⟨dds, hdst, hemp⟩)))
                · simp [hpar, hdst, hemp] at h

/-! ### Path-resolution helper lemmas -/

theorem extnameP_nil : extnameP [] = [] := by decide

theorem resolveDest_ne_nil (dest : Path) (bn : Name) : resolveDest dest bn ≠ [] := by
  unfold resolveDest
  split
  · next hx =>
    rintro rfl
    exact hx extnameP_nil
  · simp

theorem resolveDest_ext (p : Path) (bn : Name) (h : extnameP p ≠ []) :
    resolveDest p bn = p := by
  simp [resolveDest, h]

theorem resolveDest_noext (p : Path) (bn : Name) (h : ¬ extnameP p ≠ []) :
    resolveDest p bn = p ++ [bn] := by
  have h' : extnameP p = [] := not_not.mp h
  simp [resolveDest, h']

theorem not_prefix_longer (p q : Path) (h : q.length < p.length) : ¬ p <+: q :=
  fun hp => absurd hp.length_le (Nat.not_le.mpr h)

theorem prefix_dropLast_of_ne (p q : Path) (h : p <+: q) (hne : p ≠ q) :
    p <+: q.dropLast := by
  obtain ⟨r, rfl⟩ := h
  cases r with
  | nil => simp at hne
  | cons b r' =>
    rw [List.dropLast_append_cons]
    exact List.prefix_append p ((b :: r').dropLast)

theorem prefix_snoc_cases (p q : Path) (a : Name) (h : p <+: q ++ [a]) :
    p <+: q ∨ p = q ++ [a] := by
  by_cases hl : p.length ≤ q.length
  · left
    have hp := List.prefix_iff_eq_take.mp h
    rw [List.take_append_of_le_length hl] at hp
    rw [hp]
    exact List.take_prefix _ _
  · right
    have h1 : (q ++ [a]).length ≤ p.length := by
      simp only [List.length_append, List.length_singleton]
      omega
    exact h.eq_of_length (le_antisymm h.length_le h1)

/-! ### copy lemmas -/

theorem copy_src_missing (fuel : Nat) (t : FsNode) (s d : Path)
    (h : lookup t s = none) : copy fuel t s d = (t, .error .sourceNotFound) := by
  cases fuel <;> simp [copy, copyStep, h]

theorem copyStep_file_ok (cp : FsNode → Path → Path → FsNode × Except Err Path)
    (t : FsNode) (source dest : Path) (c : List Nat) (t' : FsNode) (r : Path)
    (hsrc : lookup t source = some (.file c))
    (h : copyStep cp t source dest = (t', .ok r)) :
    r = resolveDest dest (basenameP source) ∧
    ¬ source <+: resolveDest dest (basenameP source) ∧
    lookup t' (resolveDest dest (basenameP source)) = some (.file c) ∧
    (lookup t' dest).isSome = true := by
  simp only [copyStep, hsrc] at h
  cases hmk : mkdirp t (if extnameP dest ≠ [] then dest.dropLast else dest) with
  | error e => rw [hmk] at h; exact absurd h (by simp)
  | ok t1 =>
    simp only [hmk] at h
    have hsrc1 : lookup t1 source = some (.file c) :=
      mkdirp_file_pres t _ t1 source c hmk hsrc
    -- the source is never a (weak) prefix of the resolved destination,
    -- except possibly equal to it (handled separately below)
    have hnp_proper : ∀ hpre : source <+: resolveDest dest (basenameP source),
        source ≠ resolveDest dest (basenameP source) → False := by
      intro hpre hne
      by_cases hext : extnameP dest ≠ []
      · have hR : resolveDest dest (basenameP source) = dest := by
          simp [resolveDest, hext]
        rw [hR] at hpre hne
        have : source <+: dest.dropLast := prefix_dropLast_of_ne source dest hpre hne
        have hdd : (if extnameP dest ≠ [] then dest.dropLast else dest) = dest.dropLast := by
          simp [hext]
        rw [hdd] at hmk
        exact mkdirp_no_file_prefix t dest.dropLast t1 source c hmk this hsrc
      · have hR : resolveDest dest (basenameP source) = dest ++ [basenameP source] := by
          simp [resolveDest, hext]
        rw [hR] at hpre hne
        have hdd : (if extnameP dest ≠ [] then dest.dropLast else dest) = dest := by
          simp [hext]
        rw [hdd] at hmk
        rcases prefix_snoc_cases source dest (basenameP source) hpre with hc | hc
        · exact mkdirp_no_file_prefix t dest t1 source c hmk hc hsrc
        · exact hne hc
    by_cases hex : (lookup t1 (resolveDest dest (basenameP source))).isSome = true
    case pos =>
      rw [if_pos hex] at h
      by_cases hRs : resolveDest dest (basenameP source) <+: source
      · exfalso
        have hRnil := resolveDest_ne_nil dest (basenameP source)
        have h2 : lookup (remove t1 (resolveDest dest (basenameP source))) source = none := by
          obtain ⟨rr, hrr⟩ := hRs
          have hA := lookup_append (remove t1 (resolveDest dest (basenameP source)))
            (resolveDest dest (basenameP source)) rr
          rw [hrr] at hA
          rw [hA, lookup_remove_self t1 (resolveDest dest (basenameP source)) hRnil]
          rfl
        simp [h2] at h
      · have hnp : ¬ source <+: resolveDest dest (basenameP source) := by
          intro hpre
          by_cases hne : source = resolveDest dest (basenameP source)
          · exact hRs (hne ▸ List.prefix_rfl)
          · exact hnp_proper hpre hne
        have h2 : lookup (remove t1 (resolveDest dest (basenameP source))) source =
            some (.file c) :=
          lookup_remove_file t1 (resolveDest dest (basenameP source)) source c hRs hsrc1
        simp only [h2] at h
        cases hw : writeNew (remove t1 (resolveDest dest (basenameP source)))
            (resolveDest dest (basenameP source)) c with
        | error e => simp [hw] at h
        | ok t3 =>
          simp only [hw, Prod.mk.injEq, Except.ok.injEq] at h
          obtain ⟨ht', hr⟩ := h
          subst ht'
          subst hr
          obtain ⟨hRnil2, ⟨ds, hds⟩, ht3⟩ :=
            writeNew_ok (remove t1 (resolveDest dest (basenameP source)))
              (resolveDest dest (basenameP source)) c t3 hw
          have hcR : lookup t3 (resolveDest dest (basenameP source)) = some (.file c) := by
            rw [ht3]
            exact lookup_setAt_self _ _ _ ds hRnil2 hds
          refine ⟨rfl, hnp, hcR, ?_⟩
          by_cases hext : extnameP dest ≠ []
          · have hR : resolveDest dest (basenameP source) = dest := by
              simp [resolveDest, hext]
            rw [hR] at hcR
            simp [hcR]
          · have hR : resolveDest dest (basenameP source) = dest ++ [basenameP source] := by
              simp [resolveDest, hext]
            have hdd : (if extnameP dest ≠ [] then dest.dropLast else dest) = dest := by
              simp [hext]
            rw [hdd] at hmk
            obtain ⟨ds2, hds2⟩ := mkdirp_ok_dir t dest t1 hmk
            have hlen : ¬ resolveDest dest (basenameP source) <+: dest := by
              apply not_prefix_longer
              rw [hR]
              simp
            obtain ⟨ds3, hds3⟩ :=
              lookup_remove_dir t1 (resolveDest dest (basenameP source)) dest ds2 hlen hds2
            have := ht3 ▸ lookup_setAt_dir (remove t1 (resolveDest dest (basenameP source)))
              (resolveDest dest (basenameP source)) dest (.file c) ds3 hlen hds3
            obtain ⟨ds4, hds4⟩ := this
            simp [hds4]
    case neg =>
      rw [if_neg hex] at h
      have hnp : ¬ source <+: resolveDest dest (basenameP source) := by
        intro hpre
        by_cases hne : source = resolveDest dest (basenameP source)
        · rw [← hne, hsrc1] at hex
          simp at hex
        · exact hnp_proper hpre hne
      simp only [hsrc1] at h
      cases hw : writeNew t1 (resolveDest dest (basenameP source)) c with
      | error e => simp [hw] at h
      | ok t3 =>
        simp only [hw, Prod.mk.injEq, Except.ok.injEq] at h
        obtain ⟨ht', hr⟩ := h
        subst ht'
        subst hr
        obtain ⟨hRnil2, ⟨ds, hds⟩, ht3⟩ :=
          writeNew_ok t1 (resolveDest dest (basenameP source)) c t3 hw
        have hcR : lookup t3 (resolveDest dest (basenameP source)) = some (.file c) := by
          rw [ht3]
          exact lookup_setAt_self _ _ _ ds hRnil2 hds
        refine ⟨rfl, hnp, hcR, ?_⟩
        by_cases hext : extnameP dest ≠ []
        · have hR : resolveDest dest (basenameP source) = dest := by
            simp [resolveDest, hext]
          rw [hR] at hcR
          simp [hcR]
        · have hR : resolveDest dest (basenameP source) = dest ++ [basenameP source] := by
            simp [resolveDest, hext]
          have hdd : (if extnameP dest ≠ [] then dest.dropLast else dest) = dest := by
            simp [hext]
          rw [hdd] at hmk
          obtain ⟨ds2, hds2⟩ := mkdirp_ok_dir t dest t1 hmk
          have hlen : ¬ resolveDest dest (basenameP source) <+: dest := by
            apply not_prefix_longer
            rw [hR]
            simp
          have := ht3 ▸ lookup_setAt_dir t1 (resolveDest dest (basenameP source)) dest
            (.file c) ds2 hlen hds2
          obtain ⟨ds4, hds4⟩ := this
          simp [hds4]

theorem copy_file_ok (fuel : Nat) (t : FsNode) (source dest : Path) (c : List Nat)
    (t' : FsNode) (r : Path) (hsrc : lookup t source = some (.file c))
    (h : copy fuel t source dest = (t', .ok r)) :
    r = resolveDest dest (basenameP source) ∧
    ¬ source <+: resolveDest dest (basenameP source) ∧
    lookup t' (resolveDest dest (basenameP source)) = some (.file c) ∧
    (lookup t' dest).isSome = true := by
  cases fuel with
  | zero => exact copyStep_file_ok copyNone t source dest c t' r hsrc h
  | succ n => exact copyStep_file_ok (copy n) t source dest c t' r hsrc h

theorem copyChildren_ok_ret (cp : FsNode → Path → Path → FsNode × Except Err Path) :
    ∀ (items : List Name) (t : FsNode) (s d : Path) (t' : FsNode) (r : Path),
    copyChildren cp t s d items = (t', .ok r) → r = d
  | [], t, s, d, t', r, h => by
    simp only [copyChildren, Prod.mk.injEq, Except.ok.injEq] at h
    exact h.2.symm
  | item :: rest, t, s, d, t', r, h => by
    simp only [copyChildren] at h
    cases hcp : cp t (s ++ [item]) (d ++ [item]) with
    | mk t1 res =>
      rw [hcp] at h
      cases res with
      | ok val => exact copyChildren_ok_ret cp rest t1 s d t' r h
      | error e => simp at h

theorem copyNone_preserves : PreservesDirs copyNone := by
  intro t s d q ds _ hq
  exact ⟨ds, hq⟩

theorem resolveDest_length (dest : Path) (bn : Name) :
    dest.length ≤ (resolveDest dest bn).length := by
  unfold resolveDest
  split
  · exact le_rfl
  · simp

theorem copyChildren_preserves (cp : FsNode → Path → Path → FsNode × Except Err Path)
    (hcp : PreservesDirs cp) :
    ∀ (items : List Name) (t : FsNode) (s d q : Path) (ds : List (Name × FsNode)),
    q.length ≤ d.length → lookup t q = some (.dir ds) →
    ∃ ds', lookup (copyChildren cp t s d items).1 q = some (.dir ds')
  | [], t, s, d, q, ds, _, hq => ⟨ds, hq⟩
  | item :: rest, t, s, d, q, ds, hlen, hq => by
    simp only [copyChildren]
    have hlt : q.length < (d ++ [item]).length := by
      simp only [List.length_append, List.length_singleton]
      omega
    obtain ⟨ds1, hds1⟩ := hcp t (s ++ [item]) (d ++ [item]) q ds hlt hq
    cases hcall : cp t (s ++ [item]) (d ++ [item]) with
    | mk t1 res =>
      rw [hcall] at hds1
      cases res with
      | ok val => exact copyChildren_preserves cp hcp rest t1 s d q ds1 hlen hds1
      | error e => exact ⟨ds1, hds1⟩

theorem copyStep_preserves (cp : FsNode → Path → Path → FsNode × Except Err Path)
    (hcp : PreservesDirs cp) : PreservesDirs (copyStep cp) := by
  intro t s d q ds hlen hq
  cases hsrc : lookup t s with
  | none =>
    have hres : copyStep cp t s d = (t, .error .sourceNotFound) := by
      simp only [copyStep, hsrc]
    rw [hres]
    exact ⟨ds, hq⟩
  | some srcNode =>
    cases hmk : mkdirp t (if extnameP d ≠ [] then d.dropLast else d) with
    | error e =>
      have hres : copyStep cp t s d = (t, .error e) := by
        simp only [copyStep, hsrc, hmk]
      rw [hres]
      exact ⟨ds, hq⟩
    | ok t1 =>
      obtain ⟨ds1, hds1⟩ := mkdirp_dir_pres t _ t1 q ds hmk hq
      cases srcNode with
      | dir cs0 =>
        cases hmk2 : mkdirp t1 d with
        | error e =>
          have hres : copyStep cp t s d = (t1, .error e) := by
            simp only [copyStep, hsrc, hmk, hmk2]
          rw [hres]
          exact ⟨ds1, hds1⟩
        | ok t2 =>
          obtain ⟨ds2, hds2⟩ := mkdirp_dir_pres t1 d t2 q ds1 hmk2 hds1
          cases hrd : readdirM t2 s with
          | error e =>
            have hres : copyStep cp t s d = (t2, .error e) := by
              simp only [copyStep, hsrc, hmk, hmk2, hrd]
            rw [hres]
            exact ⟨ds2, hds2⟩
          | ok items =>
            have hres : copyStep cp t s d = copyChildren cp t2 s d items := by
              simp only [copyStep, hsrc, hmk, hmk2, hrd]
            rw [hres]
            exact copyChildren_preserves cp hcp items t2 s d q ds2
              (Nat.le_of_lt hlen) hds2
      | file c0 =>
        have hRlen : ¬ resolveDest d (basenameP s) <+: q := by
          apply not_prefix_longer
          have := resolveDest_length d (basenameP s)
          omega
        by_cases hex : (lookup t1 (resolveDest d (basenameP s))).isSome = true
        · obtain ⟨ds2, hds2⟩ :=
            lookup_remove_dir t1 (resolveDest d (basenameP s)) q ds1 hRlen hds1
          cases hls : lookup (remove t1 (resolveDest d (basenameP s))) s with
          | none =>
            have hres : copyStep cp t s d =
                (remove t1 (resolveDest d (basenameP s)), .error .ENOENT) := by
              simp only [copyStep, hsrc, hmk, if_pos hex, hls]
            rw [hres]
            exact ⟨ds2, hds2⟩
          | some v =>
            cases v with
            | dir vds =>
              have hres : copyStep cp t s d =
                  (remove t1 (resolveDest d (basenameP s)), .error .ENOENT) := by
                simp only [copyStep, hsrc, hmk, if_pos hex, hls]
              rw [hres]
              exact ⟨ds2, hds2⟩
            | file c1 =>
              cases hw : writeNew (remove t1 (resolveDest d (basenameP s)))
                  (resolveDest d (basenameP s)) c1 with
              | error e =>
                have hres : copyStep cp t s d =
                    (remove t1 (resolveDest d (basenameP s)), .error e) := by
                  simp only [copyStep, hsrc, hmk, if_pos hex, hls, hw]
                rw [hres]
                exact ⟨ds2, hds2⟩
              | ok t3 =>
                have hres : copyStep cp t s d =
                    (t3, .ok (resolveDest d (basenameP s))) := by
                  simp only [copyStep, hsrc, hmk, if_pos hex, hls, hw]
                rw [hres]
                obtain ⟨_, _, ht3⟩ := writeNew_ok _ _ _ _ hw
                rw [ht3]
                exact lookup_setAt_dir _ _ q (.file c1) ds2 hRlen hds2
        · cases hls : lookup t1 s with
          | none =>
            have hres : copyStep cp t s d = (t1, .error .ENOENT) := by
              simp only [copyStep, hsrc, hmk, if_neg hex, hls]
            rw [hres]
            exact ⟨ds1, hds1⟩
          | some v =>
            cases v with
            | dir vds =>
              have hres : copyStep cp t s d = (t1, .error .ENOENT) := by
                simp only [copyStep, hsrc, hmk, if_neg hex, hls]
              rw [hres]
              exact ⟨ds1, hds1⟩
            | file c1 =>
              cases hw : writeNew t1 (resolveDest d (basenameP s)) c1 with
              | error e =>
                have hres : copyStep cp t s d = (t1, .error e) := by
                  simp only [copyStep, hsrc, hmk, if_neg hex, hls, hw]
                rw [hres]
                exact ⟨ds1, hds1⟩
              | ok t3 =>
                have hres : copyStep cp t s d =
                    (t3, .ok (resolveDest d (basenameP s))) := by
                  simp only [copyStep, hsrc, hmk, if_neg hex, hls, hw]
                rw [hres]
                obtain ⟨_, _, ht3⟩ := writeNew_ok _ _ _ _ hw
                rw [ht3]
                exact lookup_setAt_dir _ _ q (.file c1) ds1 hRlen hds1

theorem copy_preserves : ∀ fuel, PreservesDirs (copy fuel)
  | 0 => copyStep_preserves copyNone copyNone_preserves
  | fuel + 1 => copyStep_preserves (copy fuel) (copy_preserves fuel)

theorem copyStep_dir_spec (cp : FsNode → Path → Path → FsNode × Except Err Path)
    (hcp : PreservesDirs cp) (t : FsNode) (s d : Path)
    (cs0 : List (Name × FsNode)) (t' : FsNode) (r : Path)
    (hsrc : lookup t s = some (.dir cs0)) (h : copyStep cp t s d = (t', .ok r)) :
    r = d ∧ ∃ ds', lookup t' d = some (.dir ds') := by
  simp only [copyStep, hsrc] at h
  cases hmk : mkdirp t (if extnameP d ≠ [] then d.dropLast else d) with
  | error e => rw [hmk] at h; exact absurd h (by simp)
  | ok t1 =>
    simp only [hmk] at h
    cases hmk2 : mkdirp t1 d with
    | error e => rw [hmk2] at h; exact absurd h (by simp)
    | ok t2 =>
      simp only [hmk2] at h
      cases hrd : readdirM t2 s with
      | error e => rw [hrd] at h; exact absurd h (by simp)
      | ok items =>
        simp only [hrd] at h
        refine ⟨copyChildren_ok_ret cp items t2 s d t' r h, ?_⟩
        obtain ⟨ds2, hds2⟩ := mkdirp_ok_dir t1 d t2 hmk2
        obtain ⟨ds3, hds3⟩ :=
          copyChildren_preserves cp hcp items t2 s d d ds2 le_rfl hds2
        rw [h] at hds3
        exact ⟨ds3, hds3⟩

theorem copy_dir_spec (fuel : Nat) (t : FsNode) (s d : Path)
    (cs0 : List (Name × FsNode)) (t' : FsNode) (r : Path)
    (hsrc : lookup t s = some (.dir cs0)) (h : copy fuel t s d = (t', .ok r)) :
    r = d ∧ ∃ ds', lookup t' d = some (.dir ds') := by
  cases fuel with
  | zero => exact copyStep_dir_spec copyNone copyNone_preserves t s d cs0 t' r hsrc h
  | succ n => exact copyStep_dir_spec (copy n) (copy_preserves n) t s d cs0 t' r hsrc h

/-! ### move lemmas -/

theorem renameFs_missing (t : FsNode) (src dst : Path) (h : lookup t src = none) :
    ∃ e, renameFs t src dst = .error e := by
  by_cases h0 : src = [] ∨ dst = []
  · exact ⟨.EINVAL, by simp [renameFs, h0]⟩
  · exact ⟨.ENOENT, by simp [renameFs, h0, h]⟩

theorem move_ok_ret (ren : Option Err) (fuel : Nat) (t : FsNode) (source dest : Path)
    (t' : FsNode) (r : Path) (h : move ren fuel t source dest = (t', .ok r)) :
    r = resolveDest dest (basenameP source) := by
  cases hsrc : lookup t source with
  | none => simp [move, hsrc] at h
  | some node =>
    simp only [move, hsrc] at h
    cases hmk : mkdirp t (resolveDest dest (basenameP source)).dropLast with
    | error e => rw [hmk] at h; exact absurd h (by simp)
    | ok t1 =>
      simp only [hmk] at h
      by_cases hex : (lookup t1 (resolveDest dest (basenameP source))).isSome = true
      · rw [if_pos hex] at h
        cases hpr : platformRename ren (remove t1 (resolveDest dest (basenameP source)))
            source (resolveDest dest (basenameP source)) with
        | ok t3 =>
          simp only [hpr, Prod.mk.injEq, Except.ok.injEq] at h
          exact h.2.symm
        | error e =>
          simp only [hpr] at h
          by_cases he : e = .EXDEV
          · rw [if_pos he] at h
            cases hcp : copy fuel (remove t1 (resolveDest dest (basenameP source)))
                source (resolveDest dest (basenameP source)) with
            | mk t3 res =>
              rw [hcp] at h
              cases res with
              | ok v =>
                simp only [Prod.mk.injEq, Except.ok.injEq] at h
                exact h.2.symm
              | error e2 => simp at h
          · rw [if_neg he] at h
            simp at h
      · rw [if_neg hex] at h
        cases hpr : platformRename ren t1 source (resolveDest dest (basenameP source)) with
        | ok t3 =>
          simp only [hpr, Prod.mk.injEq, Except.ok.injEq] at h
          exact h.2.symm
        | error e =>
          simp only [hpr] at h
          by_cases he : e = .EXDEV
          · rw [if_pos he] at h
            cases hcp : copy fuel t1 source (resolveDest dest (basenameP source)) with
            | mk t3 res =>
              rw [hcp] at h
              cases res with
              | ok v =>
                simp only [Prod.mk.injEq, Except.ok.injEq] at h
                exact h.2.symm
              | error e2 => simp at h
          · rw [if_neg he] at h
            simp at h

theorem move_overwrite (fuel : Nat) (t : FsNode) (source dest : Path)
    (node v0 : FsNode)
    (hsrc : lookup t source = some node)
    (hex : lookup t (resolveDest dest (basenameP source)) = some v0)
    (hnp1 : ¬ source <+: resolveDest dest (basenameP source))
    (hnp2 : ¬ resolveDest dest (basenameP source) <+: source) :
    ∃ t', move none fuel t source dest =
        (t', .ok (resolveDest dest (basenameP source))) ∧
      lookup t' (resolveDest dest (basenameP source)) = some node ∧
      lookup t' source = none := by
  have hRnil : resolveDest dest (basenameP source) ≠ [] := resolveDest_ne_nil _ _
  have hsnil : source ≠ [] := by
    rintro rfl
    exact hnp1 List.nil_prefix
  have hne : source ≠ resolveDest dest (basenameP source) := by
    intro heq
    exact hnp1 ⟨[], by simpa using heq⟩
  obtain ⟨pds, hpar⟩ := lookup_parent_dir t (resolveDest dest (basenameP source)) v0 hex hRnil
  have hmk : mkdirp t (resolveDest dest (basenameP source)).dropLast = .ok t :=
    mkdirp_of_dir t _ pds hpar
  have hexb : (lookup t (resolveDest dest (basenameP source))).isSome = true := by
    rw [hex]; rfl
  -- state after the pre-remove of the existing destination
  have hsrc2 : lookup (remove t (resolveDest dest (basenameP source))) source = some node := by
    rw [lookup_remove_incomp t (resolveDest dest (basenameP source)) source hnp2 hnp1]
    exact hsrc
  have hpar2 : ∃ pds', lookup (remove t (resolveDest dest (basenameP source)))
      (resolveDest dest (basenameP source)).dropLast = some (.dir pds') := by
    apply lookup_remove_dir t (resolveDest dest (basenameP source)) _ pds _ hpar
    apply not_prefix_longer
    have : (resolveDest dest (basenameP source)).dropLast.length <
        (resolveDest dest (basenameP source)).length := by
      cases hcase : resolveDest dest (basenameP source) with
      | nil => exact absurd hcase hRnil
      | cons a l => simp [List.length_dropLast]
    omega
  obtain ⟨pds', hpar2⟩ := hpar2
  have hgone : lookup (remove t (resolveDest dest (basenameP source)))
      (resolveDest dest (basenameP source)) = none :=
    lookup_remove_self t _ hRnil
  have h0 : ¬ (source = [] ∨ resolveDest dest (basenameP source) = []) := by
    rintro (h | h)
    · exact hsnil h
    · exact hRnil h
  have hren : renameFs (remove t (resolveDest dest (basenameP source))) source
      (resolveDest dest (basenameP source)) =
      .ok (setAt (remove (remove t (resolveDest dest (basenameP source))) source)
        (resolveDest dest (basenameP source)) node) := by
    simp only [renameFs, if_neg h0, hsrc2, if_neg hne, if_neg hnp1, hpar2, hgone]
  refine ⟨setAt (remove (remove t (resolveDest dest (basenameP source))) source)
    (resolveDest dest (basenameP source)) node, ?_, ?_, ?_⟩
  · simp only [move, hsrc, hmk, if_pos hexb, platformRename, hren]
  · have hpar3 : ∃ pds'', lookup (remove (remove t (resolveDest dest (basenameP source)))
        source) (resolveDest dest (basenameP source)).dropLast = some (.dir pds'') := by
      apply lookup_remove_dir _ source _ pds' _ hpar2
      intro hh
      exact hnp1 (hh.trans (List.dropLast_prefix (resolveDest dest (basenameP source))))
    obtain ⟨pds'', hpar3⟩ := hpar3
    exact lookup_setAt_self _ _ node pds'' hRnil hpar3
  · rw [lookup_setAt_incomp _ _ source node hnp2 hnp1]
    exact lookup_remove_self _ source hsnil

theorem copy_file_overwrite (fuel : Nat) (t : FsNode) (source dest : Path)
    (c : List Nat) (v0 : FsNode)
    (hsrc : lookup t source = some (.file c))
    (hex : lookup t (resolveDest dest (basenameP source)) = some v0)
    (hnp1 : ¬ source <+: resolveDest dest (basenameP source))
    (hnp2 : ¬ resolveDest dest (basenameP source) <+: source) :
    ∃ t', copy fuel t source dest = (t', .ok (resolveDest dest (basenameP source))) ∧
      lookup t' (resolveDest dest (basenameP source)) = some (.file c) := by
  have hRnil : resolveDest dest (basenameP source) ≠ [] := resolveDest_ne_nil _ _
  obtain ⟨pds, hpar⟩ := lookup_parent_dir t (resolveDest dest (basenameP source)) v0 hex hRnil
  -- the destination-directory mkdir is a no-op: everything on the way exists
  have hmk : mkdirp t (if extnameP dest ≠ [] then dest.dropLast else dest) = .ok t := by
    by_cases hext : extnameP dest ≠ []
    · rw [if_pos hext]
      have hR : resolveDest dest (basenameP source) = dest := by
        simp [resolveDest, hext]
      rw [hR] at hpar
      exact mkdirp_of_dir t _ pds hpar
    · rw [if_neg hext]
      have hR : resolveDest dest (basenameP source) = dest ++ [basenameP source] := by
        simp [resolveDest, hext]
      rw [hR] at hex
      obtain ⟨dds, hdds, _⟩ := lookup_prefix_dir t dest (basenameP source) [] v0 hex
      exact mkdirp_of_dir t dest dds hdds
  have hexb : (lookup t (resolveDest dest (basenameP source))).isSome = true := by
    rw [hex]; rfl
  have hsrc2 : lookup (remove t (resolveDest dest (basenameP source))) source =
      some (.file c) := by
    rw [lookup_remove_incomp t (resolveDest dest (basenameP source)) source hnp2 hnp1]
    exact hsrc
  have hpar2 : ∃ pds', lookup (remove t (resolveDest dest (basenameP source)))
      (resolveDest dest (basenameP source)).dropLast = some (.dir pds') := by
    apply lookup_remove_dir t (resolveDest dest (basenameP source)) _ pds _ hpar
    apply not_prefix_longer
    have : (resolveDest dest (basenameP source)).dropLast.length <
        (resolveDest dest (basenameP source)).length := by
      cases hcase : resolveDest dest (basenameP source) with
      | nil => exact absurd hcase hRnil
      | cons a l => simp [List.length_dropLast]
    omega
  obtain ⟨pds', hpar2⟩ := hpar2
  have hgone : lookup (remove t (resolveDest dest (basenameP source)))
      (resolveDest dest (basenameP source)) = none :=
    lookup_remove_self t _ hRnil
  have hw : writeNew (remove t (resolveDest dest (basenameP source)))
      (resolveDest dest (basenameP source)) c =
      .ok (setAt (remove t (resolveDest dest (basenameP source)))
        (resolveDest dest (basenameP source)) (.file c)) := by
    simp only [writeNew, if_neg hRnil, hpar2, hgone]
  have hstep : ∀ cp, copyStep cp t source dest =
      (setAt (remove t (resolveDest dest (basenameP source)))
        (resolveDest dest (basenameP source)) (.file c),
       .ok (resolveDest dest (basenameP source))) := by
    intro cp
    simp only [copyStep, hsrc, hmk, if_pos hexb, hsrc2, hw]
  refine ⟨setAt (remove t (resolveDest dest (basenameP source)))
    (resolveDest dest (basenameP source)) (.file c), ?_, ?_⟩
  · cases fuel with
    | zero => exact hstep copyNone
    | succ n => exact hstep (copy n)
  · exact lookup_setAt_self _ _ _ pds' hRnil hpar2

/-! ### list lemmas -/

theorem toLowerChar_plain (ch : Char) (h : plainChar ch) : toLowerChar ch = ch := by
  unfold toLowerChar
  rw [if_neg]
  rintro ⟨h1, h2⟩
  rcases h with ⟨ha, hb⟩ | ⟨ha, hb⟩
  · exact absurd (le_trans ha h2) (by decide)
  · exact absurd (le_trans h1 hb) (by decide)

theorem name_map_id (f : Char → Char) :
    ∀ (l : Name), (∀ x ∈ l, f x = x) → l.map f = l
  | [], _ => rfl
  | a :: l, h => by
    simp only [List.map_cons, h a (by simp)]
    rw [name_map_id f l (fun x hx => h x (by simp [hx]))]

theorem plain_ext_transforms (e : Name) (hne : e ≠ [])
    (h : ∀ ch ∈ e, plainChar ch) :
    stripLeadingDots e = e ∧ toLowerName e = e ∧ legacyStrip e = e := by
  refine ⟨?_, ?_, ?_⟩
  · cases e with
    | nil => rfl
    | cons a l =>
      have ha := h a (by simp)
      have : ¬ (a = '.') := by
        rintro rfl
        rcases ha with ⟨h1, _⟩ | ⟨h1, _⟩ <;> exact absurd h1 (by decide)
      simp [stripLeadingDots, List.dropWhile_cons, this]
  · exact name_map_id toLowerChar e (fun x hx => toLowerChar_plain x (h x hx))
  · unfold legacyStrip
    rw [List.filter_eq_self]
    intro a ha
    have hp := h a ha
    simp only [decide_eq_true_eq, not_or]
    have : ∀ bad : Char, bad < '0' → a ≠ bad := by
      intro bad hbad heq
      rcases hp with ⟨h1, _⟩ | ⟨h1, _⟩
      · exact absurd (lt_of_lt_of_le hbad (le_trans (by decide) h1)) (by simp [heq])
      · exact absurd (lt_of_lt_of_le hbad h1) (by simp [heq])
    exact ⟨this '.' (by decide), this ' ' (by decide), this '\t' (by decide),
      this '\n' (by decide), this '\r' (by decide)⟩

theorem walkItems_nonrec (wk : Path → Except Err (List Name)) (bad : Path → Bool)
    (t : FsNode) (exts : Option ExtOpt) (current : Path) :
    ∀ files : List Name,
    walkItems wk bad t exts false false current files =
      .ok (files.filter (fun f => keepName exts f))
  | [] => rfl
  | name :: rest => by
    simp only [walkItems, walkItems_nonrec wk bad t exts current rest]
    by_cases hk : keepName exts name = true
    · simp [hk, List.filter_cons]
    · simp [hk, List.filter_cons]

/-! ### Claims -/

/-- C1: copying a directory tree of shape (x.txt, sub/y.txt) to an
extensionless destination creates the destination as a directory holding
dest/x.txt and dest/sub/y.txt, each with the byte content of the
corresponding source file, and returns the destination path. -/
theorem claim1_dir_copy_recursion (c1 c2 : List Nat) :
    (copy 3 (sampleTree1 c1 c2) ["src".data] ["dest".data]).2 =
      .ok ["dest".data] ∧
    (∃ ds, lookup (copy 3 (sampleTree1 c1 c2) ["src".data] ["dest".data]).1
      ["dest".data] = some (.dir ds)) ∧
    lookup (copy 3 (sampleTree1 c1 c2) ["src".data] ["dest".data]).1
      ["dest".data, "x.txt".data] = some (.file c1) ∧
    lookup (copy 3 (sampleTree1 c1 c2) ["src".data] ["dest".data]).1
      ["dest".data, "sub".data, "y.txt".data] = some (.file c2) :=
  ⟨rfl, ⟨_, rfl⟩, rfl, rfl⟩

/-- C5: copy and move invoked on a source path that does not exist fail
with the source-not-found error, and the filesystem tree they return is
exactly the input tree: no directory was created, no node removed, no
file written. -/
theorem claim5_missing_source (fuel : Nat) (ren : Option Err) (t : FsNode)
    (source dest : Path) (hsrc : lookup t source = none) :
    copy fuel t source dest = (t, .error .sourceNotFound) ∧
    move ren fuel t source dest = (t, .error .sourceNotFound) :=
  ⟨copy_src_missing fuel t source dest hsrc, by simp [move, hsrc]⟩

theorem claim5_witness :
    copy 0 fsFileOnly ["nope".data] ["d".data] =
      (fsFileOnly, .error .sourceNotFound) ∧
    move none 0 fsFileOnly ["nope".data] ["d".data] =
      (fsFileOnly, .error .sourceNotFound) :=
  claim5_missing_source 0 none fsFileOnly ["nope".data] ["d".data] rfl

/-- C9: separator normalization is idempotent — unix (unix p) = unix p —
and the normalized result contains no backslash. -/
theorem claim9_unix_idempotent (p : List Char) :
    unix (unix p) = unix p ∧ '\\' ∉ unix p := by
  constructor
  · unfold unix
    rw [List.map_map]
    apply List.map_congr_left
    intro a _
    by_cases hc : a = '\\' <;> simp [hc]
  · unfold unix
    rw [List.mem_map]
    rintro ⟨a, _, ha⟩
    by_cases hc : a = '\\' <;> simp [hc] at ha

/-- C2: move first attempts the platform rename.  When the rename step
reports the cross-device error EXDEV (and only then) move falls back to
recursively copying the source to the resolved destination and then
recursively removing the source; a rename failure with any other code is
returned to the caller unchanged; a successful rename triggers no
fallback. -/
theorem claim2_move_exdev_fallback (fuel : Nat) (t : FsNode) (source dest : Path)
    (node t1 : FsNode)
    (hsrc : lookup t source = some node)
    (hmk : mkdirp t (resolveDest dest (basenameP source)).dropLast = .ok t1) :
    (∀ t3 v, copy fuel
        (if (lookup t1 (resolveDest dest (basenameP source))).isSome
          then remove t1 (resolveDest dest (basenameP source)) else t1)
        source (resolveDest dest (basenameP source)) = (t3, .ok v) →
      move (some .EXDEV) fuel t source dest =
        (remove t3 source, .ok (resolveDest dest (basenameP source)))) ∧
    (∀ t3 e2, copy fuel
        (if (lookup t1 (resolveDest dest (basenameP source))).isSome
          then remove t1 (resolveDest dest (basenameP source)) else t1)
        source (resolveDest dest (basenameP source)) = (t3, .error e2) →
      move (some .EXDEV) fuel t source dest = (t3, .error e2)) ∧
    (∀ e : Err, e ≠ .EXDEV → move (some e) fuel t source dest =
      ((if (lookup t1 (resolveDest dest (basenameP source))).isSome
          then remove t1 (resolveDest dest (basenameP source)) else t1), .error e)) ∧
    (∀ t3, renameFs
        (if (lookup t1 (resolveDest dest (basenameP source))).isSome
          then remove t1 (resolveDest dest (basenameP source)) else t1)
        source (resolveDest dest (basenameP source)) = .ok t3 →
      move none fuel t source dest = (t3, .ok (resolveDest dest (basenameP source)))) := by
  refine ⟨?_, ?_, ?_, ?_⟩
  · intro t3 v hcp
    simp only [move, hsrc, hmk, platformRename]
    rw [if_pos trivial]
    rw [hcp]
  · intro t3 e2 hcp
    simp only [move, hsrc, hmk, platformRename]
    rw [if_pos trivial]
    rw [hcp]
  · intro e he
    simp only [move, hsrc, hmk, platformRename]
    rw [if_neg he]
  · intro t3 hren
    simp only [move, hsrc, hmk, platformRename, hren]

theorem claim2_witness :
    move (some .EISDIR) 1 fsFileOnly ["a.txt".data] ["c.txt".data] =
      (fsFileOnly, .error .EISDIR) :=
  (claim2_move_exdev_fallback 1 fsFileOnly ["a.txt".data] ["c.txt".data]
    (.file [9]) fsFileOnly rfl rfl).2.2.1 .EISDIR (by decide)

/-- C3: after a successful move of a file, the source path no longer
exists in the resulting tree and the returned destination path does. -/
theorem claim3_move_removes_source (ren : Option Err) (fuel : Nat) (t : FsNode)
    (source dest : Path) (c : List Nat) (t' : FsNode) (r : Path)
    (hnil : source ≠ [])
    (hsrc : lookup t source = some (.file c))
    (h : move ren fuel t source dest = (t', .ok r)) :
    lookup t' source = none ∧ (lookup t' r).isSome = true := by
  have hRnil : resolveDest dest (basenameP source) ≠ [] := resolveDest_ne_nil _ _
  simp only [move, hsrc] at h
  cases hmk : mkdirp t (resolveDest dest (basenameP source)).dropLast with
  | error e => rw [hmk] at h; exact absurd h (by simp)
  | ok t1 =>
    simp only [hmk] at h
    have hsrc1 : lookup t1 source = some (.file c) :=
      mkdirp_file_pres t _ t1 source c hmk hsrc
    by_cases hex : (lookup t1 (resolveDest dest (basenameP source))).isSome = true
    case pos =>
      rw [if_pos hex] at h
      by_cases hRpre : resolveDest dest (basenameP source) <+: source
      · exfalso
        have hnone : lookup (remove t1 (resolveDest dest (basenameP source))) source
            = none := by
          obtain ⟨rr, hrr⟩ := hRpre
          have hA := lookup_append (remove t1 (resolveDest dest (basenameP source)))
            (resolveDest dest (basenameP source)) rr
          rw [hrr] at hA
          rw [hA, lookup_remove_self t1 _ hRnil]
          rfl
        cases hpr : platformRename ren (remove t1 (resolveDest dest (basenameP source)))
            source (resolveDest dest (basenameP source)) with
        | ok t3 =>
          cases ren with
          | some e => simp [platformRename] at hpr
          | none =>
            simp only [platformRename] at hpr
            obtain ⟨e, he⟩ := renameFs_missing _ source _ hnone
            rw [he] at hpr
            exact absurd hpr (by simp)
        | error e =>
          simp only [hpr] at h
          by_cases hexd : e = .EXDEV
          · rw [if_pos hexd] at h
            rw [copy_src_missing fuel _ source _ hnone] at h
            simp at h
          · rw [if_neg hexd] at h
            simp at h
      · have hsrc2 : lookup (remove t1 (resolveDest dest (basenameP source))) source =
            some (.file c) :=
          lookup_remove_file t1 _ source c hRpre hsrc1
        have hne : source ≠ resolveDest dest (basenameP source) := by
          intro heq
          exact hRpre ⟨[], by simpa using heq.symm⟩
        cases hpr : platformRename ren (remove t1 (resolveDest dest (basenameP source)))
            source (resolveDest dest (basenameP source)) with
        | ok t3 =>
          simp only [hpr, Prod.mk.injEq, Except.ok.injEq] at h
          obtain ⟨h1, h2⟩ := h
          cases ren with
          | some e => simp [platformRename] at hpr
          | none =>
            simp only [platformRename] at hpr
            obtain ⟨ha, hb⟩ := renameFs_ok_spec _ source _ t3 (.file c) hsrc2 hne hpr
            subst h1
            subst h2
            exact ⟨ha, by rw [hb]; rfl⟩
        | error e =>
          simp only [hpr] at h
          by_cases hexd : e = .EXDEV
          · rw [if_pos hexd] at h
            cases hcp : copy fuel (remove t1 (resolveDest dest (basenameP source)))
                source (resolveDest dest (basenameP source)) with
            | mk t3 res =>
              rw [hcp] at h
              cases res with
              | error e2 => simp at h
              | ok v =>
                simp only [Prod.mk.injEq, Except.ok.injEq] at h
                obtain ⟨h1, h2⟩ := h
                obtain ⟨hv1, hv2, hv3, hv4⟩ :=
                  copy_file_ok fuel _ source _ c t3 v hsrc2 hcp
                have hnpR : ¬ source <+: resolveDest dest (basenameP source) := by
                  intro hpre
                  by_cases hre : extnameP (resolveDest dest (basenameP source)) ≠ []
                  · refine hv2 ?_
                    rw [resolveDest_ext _ _ hre]
                    exact hpre
                  · refine hv2 ?_
                    rw [resolveDest_noext _ _ hre]
                    exact hpre.trans (List.prefix_append _ _)
                subst h1
                subst h2
                constructor
                · exact lookup_remove_self t3 source hnil
                · cases hb : lookup t3 (resolveDest dest (basenameP source)) with
                  | none => rw [hb] at hv4; simp at hv4
                  | some v2 =>
                    cases v2 with
                    | file c2 =>
                      rw [lookup_remove_file t3 source _ c2 hnpR hb]
                      rfl
                    | dir ds2 =>
                      obtain ⟨ds3, hds3⟩ := lookup_remove_dir t3 source _ ds2 hnpR hb
                      rw [hds3]
                      rfl
          · rw [if_neg hexd] at h
            simp at h
    case neg =>
      rw [if_neg hex] at h
      have hne : source ≠ resolveDest dest (basenameP source) := by
        intro heq
        rw [← heq, hsrc1] at hex
        exact hex rfl
      cases hpr : platformRename ren t1 source (resolveDest dest (basenameP source)) with
      | ok t3 =>
        simp only [hpr, Prod.mk.injEq, Except.ok.injEq] at h
        obtain ⟨h1, h2⟩ := h
        cases ren with
        | some e => simp [platformRename] at hpr
        | none =>
          simp only [platformRename] at hpr
          obtain ⟨ha, hb⟩ := renameFs_ok_spec t1 source _ t3 (.file c) hsrc1 hne hpr
          subst h1
          subst h2
          exact ⟨ha, by rw [hb]; rfl⟩
      | error e =>
        simp only [hpr] at h
        by_cases hexd : e = .EXDEV
        · rw [if_pos hexd] at h
          cases hcp : copy fuel t1 source (resolveDest dest (basenameP source)) with
          | mk t3 res =>
            rw [hcp] at h
            cases res with
            | error e2 => simp at h
            | ok v =>
              simp only [Prod.mk.injEq, Except.ok.injEq] at h
              obtain ⟨h1, h2⟩ := h
              obtain ⟨hv1, hv2, hv3, hv4⟩ :=
                copy_file_ok fuel t1 source _ c t3 v hsrc1 hcp
              have hnpR : ¬ source <+: resolveDest dest (basenameP source) := by
                intro hpre
                by_cases hre : extnameP (resolveDest dest (basenameP source)) ≠ []
                · refine hv2 ?_
                  rw [resolveDest_ext _ _ hre]
                  exact hpre
                · refine hv2 ?_
                  rw [resolveDest_noext _ _ hre]
                  exact hpre.trans (List.prefix_append _ _)
              subst h1
              subst h2
              constructor
              · exact lookup_remove_self t3 source hnil
              · cases hb : lookup t3 (resolveDest dest (basenameP source)) with
                | none => rw [hb] at hv4; simp at hv4
                | some v2 =>
                  cases v2 with
                  | file c2 =>
                    rw [lookup_remove_file t3 source _ c2 hnpR hb]
                    rfl
                  | dir ds2 =>
                    obtain ⟨ds3, hds3⟩ := lookup_remove_dir t3 source _ ds2 hnpR hb
                    rw [hds3]
                    rfl
        · rw [if_neg hexd] at h
          simp at h

theorem claim3_witness :
    lookup (.dir [("b.txt".data, .file [9])] : FsNode) ["a.txt".data] = none ∧
    (lookup (.dir [("b.txt".data, .file [9])] : FsNode) ["b.txt".data]).isSome = true :=
  claim3_move_removes_source none 1 fsFileOnly ["a.txt".data] ["b.txt".data] [9]
    (.dir [("b.txt".data, .file [9])]) ["b.txt".data] (by decide) rfl rfl

/-- C4 counterexample: a node (file) exists at the final destination
path, yet copy of a directory source fails with EEXIST instead of
succeeding — the pre-existing destination file is not replaced. -/
theorem claim4_counterexample :
    lookup fsDirFile ["src".data] = some (.dir []) ∧
    lookup fsDirFile (resolveDest ["f.txt".data] (basenameP ["src".data])) =
      some (.file [5]) ∧
    copy 2 fsDirFile ["src".data] ["f.txt".data] = (fsDirFile, .error .EEXIST) :=
  ⟨rfl, rfl, rfl⟩

/-- C4 amended: when a node already exists at the final destination path
and neither of source and final destination is a prefix of the other,
move succeeds — removing the pre-existing node recursively before the
rename — and the destination afterwards holds exactly the source node
(no stale children); copy with a file source succeeds — removing the
pre-existing node before the write — and the destination afterwards
holds the source's content.  (Copy with a directory source is excluded:
it fails with EEXIST on a pre-existing destination file, and merges into
rather than replaces a pre-existing destination directory.) -/
theorem claim4_overwrite_amended (fuel : Nat) (t : FsNode) (source dest : Path)
    (node v0 : FsNode)
    (hsrc : lookup t source = some node)
    (hex : lookup t (resolveDest dest (basenameP source)) = some v0)
    (hnp1 : ¬ source <+: resolveDest dest (basenameP source))
    (hnp2 : ¬ resolveDest dest (basenameP source) <+: source) :
    (∃ t', move none fuel t source dest =
        (t', .ok (resolveDest dest (basenameP source))) ∧
      lookup t' (resolveDest dest (basenameP source)) = some node ∧
      lookup t' source = none) ∧
    (∀ c, node = .file c →
      ∃ t', copy fuel t source dest =
          (t', .ok (resolveDest dest (basenameP source))) ∧
        lookup t' (resolveDest dest (basenameP source)) = some (.file c)) := by
  refine ⟨move_overwrite fuel t source dest node v0 hsrc hex hnp1 hnp2, ?_⟩
  intro c hc
  subst hc
  exact copy_file_overwrite fuel t source dest c v0 hsrc hex hnp1 hnp2

theorem claim4_witness :
    (∃ t', move none 1 fsOver ["s".data] ["t.x".data] =
        (t', .ok (resolveDest ["t.x".data] (basenameP ["s".data]))) ∧
      lookup t' (resolveDest ["t.x".data] (basenameP ["s".data])) =
        some (.dir [("n.txt".data, .file [1])]) ∧
      lookup t' ["s".data] = none) ∧
    (∀ c, (.dir [("n.txt".data, .file [1])] : FsNode) = .file c →
      ∃ t', copy 1 fsOver ["s".data] ["t.x".data] =
          (t', .ok (resolveDest ["t.x".data] (basenameP ["s".data]))) ∧
        lookup t' (resolveDest ["t.x".data] (basenameP ["s".data])) =
          some (.file c)) :=
  claim4_overwrite_amended 1 fsOver ["s".data] ["t.x".data]
    (.dir [("n.txt".data, .file [1])]) (.dir [("stale.txt".data, .file [9])])
    rfl rfl (by decide) (by decide)

/-- C6: the final destination of a file copy and of any move is resolved
by the basename-or-literal rule (extension present: the raw destination
verbatim; otherwise the source basename appended), and the concrete
examples: copy of a/b/file.txt to dest yields dest/file.txt, and to
dest/renamed.txt yields exactly dest/renamed.txt. -/
theorem claim6_dest_resolution :
    (∀ (fuel : Nat) (t : FsNode) (source dest : Path) (c : List Nat)
      (t' : FsNode) (r : Path), lookup t source = some (.file c) →
      copy fuel t source dest = (t', .ok r) →
      r = resolveDest dest (basenameP source)) ∧
    (∀ (ren : Option Err) (fuel : Nat) (t : FsNode) (source dest : Path)
      (t' : FsNode) (r : Path), move ren fuel t source dest = (t', .ok r) →
      r = resolveDest dest (basenameP source)) ∧
    (copy 1 fsAB ["a".data, "b".data, "file.txt".data] ["dest".data]).2 =
      .ok ["dest".data, "file.txt".data] ∧
    (copy 1 fsAB ["a".data, "b".data, "file.txt".data]
      ["dest".data, "renamed.txt".data]).2 =
      .ok ["dest".data, "renamed.txt".data] := by
  refine ⟨?_, ?_, rfl, rfl⟩
  · intro fuel t source dest c t' r hsrc h
    exact (copy_file_ok fuel t source dest c t' r hsrc h).1
  · intro ren fuel t source dest t' r h
    exact move_ok_ret ren fuel t source dest t' r h

theorem claim6_witness :
    (["dest".data, "file.txt".data] : Path) =
      resolveDest ["dest".data] (basenameP ["a".data, "b".data, "file.txt".data]) :=
  claim6_dest_resolution.1 1 fsAB ["a".data, "b".data, "file.txt".data]
    ["dest".data] [7] (copy 1 fsAB ["a".data, "b".data, "file.txt".data]
      ["dest".data]).1 ["dest".data, "file.txt".data] rfl rfl

/-- C7 counterexample: for a directory source, copy creates and returns
the raw destination itself: the run returns "dest", nothing exists at the
resolution's final path "dest/src", and the child lands directly at
dest/x.txt — refuting that the created and returned directory is
destRaw + separator + basename(source). -/
theorem claim7_counterexample :
    (copy 3 fsDirX ["src".data] ["dest".data]).2 = .ok ["dest".data] ∧
    ["dest".data] ≠ resolveDest ["dest".data] (basenameP ["src".data]) ∧
    lookup (copy 3 fsDirX ["src".data] ["dest".data]).1
      (resolveDest ["dest".data] (basenameP ["src".data])) = none ∧
    lookup (copy 3 fsDirX ["src".data] ["dest".data]).1
      ["dest".data, "x.txt".data] = some (.file [3]) :=
  ⟨rfl, by decide, rfl, rfl⟩

/-- C7 amended: for a directory source, the directory copy recursively
creates and returns is the raw destination itself (children are copied
directly beneath it); the basename-append resolution applies only to
file sources. -/
theorem claim7_dir_copy_raw_dest (fuel : Nat) (t : FsNode) (source dest : Path)
    (cs0 : List (Name × FsNode)) (t' : FsNode) (r : Path)
    (hsrc : lookup t source = some (.dir cs0))
    (h : copy fuel t source dest = (t', .ok r)) :
    r = dest ∧ ∃ ds', lookup t' dest = some (.dir ds') :=
  copy_dir_spec fuel t source dest cs0 t' r hsrc h

theorem claim7_witness :
    (["dest".data] : Path) = ["dest".data] ∧
    ∃ ds', lookup (copy 3 fsDirX ["src".data] ["dest".data]).1 ["dest".data] =
      some (.dir ds') :=
  claim7_dir_copy_raw_dest 3 fsDirX ["src".data] ["dest".data]
    [("x.txt".data, .file [3])] (copy 3 fsDirX ["src".data] ["dest".data]).1
    ["dest".data] rfl rfl

/-- C8 counterexample: with a stat failure injected on the entry d/sub —
which really is a directory containing y.txt — the recursive listing
completes successfully with d/sub emitted as a leaf and y.txt omitted:
the per-entry stat failure does not propagate as an error. -/
theorem claim8_counterexample :
    badSub ["d".data, "sub".data] = true ∧
    lookup fsDeep ["d".data, "sub".data] =
      some (.dir [("y.txt".data, .file [1])]) ∧
    list badSub fsDeep 5 ["d".data] none true false = .ok ["sub".data] :=
  ⟨rfl, rfl, rfl⟩

/-- C8 amended: during a recursive listing, a per-entry stat failure is
silently swallowed: the entry is not recursed into and is treated as a
leaf (emitted subject to the extension filter), and the walk continues
with the remaining entries — the failure never surfaces as an error. -/
theorem claim8_stat_swallowed (wk : Path → Except Err (List Name)) (bad : Path → Bool)
    (t : FsNode) (exts : Option ExtOpt) (fullPath : Bool) (current : Path)
    (name : Name) (rest : List Name)
    (hbad : bad (current ++ [name]) = true) :
    (∀ e, walkItems wk bad t exts true fullPath current rest = .error e →
      walkItems wk bad t exts true fullPath current (name :: rest) = .error e) ∧
    (∀ l, walkItems wk bad t exts true fullPath current rest = .ok l →
      walkItems wk bad t exts true fullPath current (name :: rest) =
        .ok ((if keepName exts name then
          [if fullPath then renderPath (current ++ [name]) else name] else []) ++ l)) := by
  have hs : statKind bad t (current ++ [name]) = none := by
    simp [statKind, hbad]
  constructor
  · intro e he
    simp only [walkItems, hs]
    rw [if_neg (by simp)]
    rw [he]
  · intro l hl
    simp only [walkItems, hs]
    rw [if_neg (by simp)]
    rw [hl]

theorem claim8_witness :
    walkItems (walkList badSub fsDeep none true false 4) badSub fsDeep none true
      false ["d".data] ["sub".data] = .ok ["sub".data] :=
  (claim8_stat_swallowed (walkList badSub fsDeep none true false 4) badSub fsDeep
    none false ["d".data] ("sub".data) [] rfl).2 [] rfl

/-- C10: over a directory whose entries have lowercase extensions and an
extensions option given as an array of lowercase, dot-free tokens, the
legacy list and the new list (non-recursive, names only) return the same
entries. -/
theorem claim10_list_refinement (bad : Path → Bool) (t : FsNode) (fuel : Nat)
    (dirPath : Path) (exts : List Name) (files : List Name)
    (hdir : readdirM t dirPath = .ok files)
    (hfiles : ∀ f ∈ files, toLowerName (extnameCore f) = extnameCore f)
    (hexts : ∀ e ∈ exts, e ≠ [] ∧ ∀ ch ∈ e, plainChar ch) :
    ∃ l, legacyList t dirPath (some (.arr exts)) = .ok l ∧
      list bad t (fuel + 1) dirPath (some (.arr exts)) false false = .ok l := by
  refine ⟨files.filter (fun f => keepName (some (.arr exts)) f), ?_, ?_⟩
  · simp only [legacyList, hdir, legacyExtList]
    congr 1
    apply List.filter_congr
    intro f hf
    have hmaps : exts.map (fun e => '.' :: legacyStrip e) =
        exts.map (fun e => '.' :: toLowerName (stripLeadingDots e)) := by
      apply List.map_congr_left
      intro e he
      obtain ⟨hne, hch⟩ := hexts e he
      obtain ⟨h1, h2, h3⟩ := plain_ext_transforms e hne hch
      rw [h1, h2, h3]
    simp only [keepName, allowedExts, hfiles f hf, hmaps]
  · simp only [list, walkList, hdir]
    exact walkItems_nonrec _ bad t (some (.arr exts)) dirPath files

theorem claim10_witness :
    ∃ l, legacyList fsListDir ["dir".data]
        (some (.arr ["js".data, "ts".data])) = .ok l ∧
      list badSub fsListDir 1 ["dir".data] (some (.arr ["js".data, "ts".data]))
        false false = .ok l :=
  claim10_list_refinement badSub fsListDir 0 ["dir".data]
    ["js".data, "ts".data]
    ["a.js".data, "b.ts".data, "c.txt".data] rfl (by decide) (by decide)

end Njfs
